import Mathlib

/-!
Verification of the batched step-generation core of a RAG pipeline
(`utils.py`): the resilient JSON extractor `_parse_json_safely`, the
step-count extractor `_get_total_steps`, the batch generator
`_generate_steps_batch`, the text-generation client `generate_text`, and
the orchestrator `generate_assembly_steps`.

The Python code is shallowly embedded: the relevant fragment of
`json.loads` (strict mode) is implemented as a fuel-indexed recursive
descent parser over `List Char`; the two regular expressions used by the
extractor (`'''json\s*|\s*'''` fence stripping, where ' stands for a
backtick, and the complete-step-object pattern) are implemented directly
with their leftmost / greedy-with-backtracking semantics; Python `None`
becomes `Option.none`, exceptions become `Except` / `Option` failure
values.  Floating point JSON numbers are kept as raw tokens (their IEEE
value is never needed by the code under study), and the `\d` / `\s`
character classes are taken over their ASCII-plus-common-Unicode parts.
-/

set_option maxRecDepth 4000

namespace Rag

/-- JSON whitespace accepted by `json.loads` between tokens. -/
def jsonWs (c : Char) : Bool :=
  c = ' ' || c = '\t' || c = '\n' || c = '\r'

/-- Whitespace for Python `str.strip` and the regex class `\s`
(ASCII whitespace, the C1 separators, and the common Unicode spaces). -/
def pySpace (c : Char) : Bool :=
  c.toNat ∈ [0x9, 0xA, 0xB, 0xC, 0xD, 0x1C, 0x1D, 0x1E, 0x1F, 0x20, 0x85,
    0xA0, 0x1680, 0x2000, 0x2001, 0x2002, 0x2003, 0x2004, 0x2005, 0x2006,
    0x2007, 0x2008, 0x2009, 0x200A, 0x2028, 0x2029, 0x202F, 0x205F, 0x3000]

/-- ASCII decimal digit (`\d` over ASCII). -/
def isDigitC (c : Char) : Bool :=
  '0' ≤ c && c ≤ '9'

/-- Python values produced by `json.loads`.  Numbers with a fraction or
exponent part are kept as their raw token (IEEE semantics out of scope). -/
inductive Json where
  | null : Json
  | bool (b : Bool) : Json
  | num (n : Int) : Json
  | fnum (tok : String) : Json
  | str (s : String) : Json
  | arr (elems : List Json) : Json
  | obj (fields : List (String × Json)) : Json
deriving Repr

mutual

/-- Structural equality test for `Json`. -/
def Json.beq : Json → Json → Bool
  | .null, .null => true
  | .bool a, .bool b => a = b
  | .num a, .num b => a = b
  | .fnum a, .fnum b => a = b
  | .str a, .str b => a = b
  | .arr a, .arr b => Json.beqList a b
  | .obj a, .obj b => Json.beqFields a b
  | _, _ => false

/-- Equality test for lists of `Json`. -/
def Json.beqList : List Json → List Json → Bool
  | [], [] => true
  | x :: xs, y :: ys => Json.beq x y && Json.beqList xs ys
  | _, _ => false

/-- Equality test for association lists of `Json`. -/
def Json.beqFields : List (String × Json) → List (String × Json) → Bool
  | [], [] => true
  | (k, v) :: xs, (l, w) :: ys => k = l && Json.beq v w && Json.beqFields xs ys
  | _, _ => false

end

mutual

theorem Json.beq_iff : ∀ a b : Json, Json.beq a b = true ↔ a = b
  | .null, b => by cases b <;> simp [Json.beq]
  | .bool x, b => by cases b <;> simp [Json.beq]
  | .num x, b => by cases b <;> simp [Json.beq]
  | .fnum x, b => by cases b <;> simp [Json.beq]
  | .str x, b => by cases b <;> simp [Json.beq]
  | .arr xs, b => by
      cases b
      case arr ys => simpa [Json.beq] using Json.beqList_iff xs ys
      all_goals simp [Json.beq]
  | .obj xs, b => by
      cases b
      case obj ys => simpa [Json.beq] using Json.beqFields_iff xs ys
      all_goals simp [Json.beq]

theorem Json.beqList_iff : ∀ xs ys : List Json, Json.beqList xs ys = true ↔ xs = ys
  | [], ys => by cases ys <;> simp [Json.beqList]
  | x :: xs, ys => by
      cases ys with
      | nil => simp [Json.beqList]
      | cons y ys =>
        simp only [Json.beqList, Bool.and_eq_true, List.cons.injEq]
        rw [Json.beq_iff x y, Json.beqList_iff xs ys]

theorem Json.beqFields_iff :
    ∀ xs ys : List (String × Json), Json.beqFields xs ys = true ↔ xs = ys
  | [], ys => by cases ys <;> simp [Json.beqFields]
  | (k, v) :: xs, ys => by
      cases ys with
      | nil => simp [Json.beqFields]
      | cons y ys =>
        obtain ⟨l, w⟩ := y
        simp only [Json.beqFields, Bool.and_eq_true, List.cons.injEq,
          Prod.mk.injEq, decide_eq_true_eq]
        rw [Json.beq_iff v w, Json.beqFields_iff xs ys]

end

instance : DecidableEq Json :=
  fun a b => decidable_of_iff _ (Json.beq_iff a b)

instance {α β : Type} [DecidableEq α] [DecidableEq β] :
    DecidableEq (Except α β) := fun a b =>
  match a, b with
  | .ok x, .ok y =>
    if h : x = y then isTrue (by rw [h])
    else isFalse (fun hh => h (Except.ok.inj hh))
  | .error x, .error y =>
    if h : x = y then isTrue (by rw [h])
    else isFalse (fun hh => h (Except.error.inj hh))
  | .ok _, .error _ => isFalse (fun hh => Except.noConfusion hh)
  | .error _, .ok _ => isFalse (fun hh => Except.noConfusion hh)

/-- `listIsPre p l` tests whether `p` is an initial segment of `l`. -/
def listIsPre : List Char → List Char → Bool
  | [], _ => true
  | _ :: _, [] => false
  | p :: ps, l :: ls => p = l && listIsPre ps ls

theorem listIsPre_length {p l : List Char} (h : listIsPre p l = true) :
    p.length ≤ l.length := by
  induction p generalizing l with
  | nil => simp
  | cons c cs ih =>
    cases l with
    | nil => simp [listIsPre] at h
    | cons d ds =>
      simp only [listIsPre, Bool.and_eq_true] at h
      simpa [Nat.succ_le_succ_iff] using ih h.2

/-- Hexadecimal digit value, used by `\uXXXX` escapes. -/
def hexVal (c : Char) : Option Nat :=
  if '0' ≤ c && c ≤ '9' then some (c.toNat - 48)
  else if 'a' ≤ c && c ≤ 'f' then some (c.toNat - 87)
  else if 'A' ≤ c && c ≤ 'F' then some (c.toNat - 55)
  else none

/-- Value of the four leading hexadecimal digits, if present. -/
def hexsAt (cs : List Char) : Option Nat :=
  match cs.take 4 with
  | [a, b, c, d] =>
    match hexVal a, hexVal b, hexVal c, hexVal d with
    | some x, some y, some z, some w => some (((x * 16 + y) * 16 + z) * 16 + w)
    | _, _, _, _ => none
  | _ => none

/-- Value of a leading `\uXXXX` escape denoting a low surrogate. -/
def lowSurrAt (cs : List Char) : Option Nat :=
  match cs.take 2 with
  | ['\\', 'u'] =>
    match hexsAt (cs.drop 2) with
    | some m => if 0xDC00 ≤ m ∧ m < 0xE000 then some m else none
    | none => none
  | _ => none

/-- Decode one escape sequence (the input starts after the backslash):
returns the decoded character and the remaining input.  `\uXXXX` escapes
are decoded, combining valid surrogate pairs (a lone surrogate, which
Python keeps as a lone surrogate code unit, has no `Char` counterpart and
is mapped to U+0000 by `Char.ofNat`). -/
def parseEsc : List Char → Option (Char × List Char)
  | [] => none
  | e :: cs2 =>
    if e = '\"' ∨ e = '\\' ∨ e = '/' then some (e, cs2)
    else if e = 'b' then some ('\x08', cs2)
    else if e = 'f' then some ('\x0c', cs2)
    else if e = 'n' then some ('\n', cs2)
    else if e = 'r' then some ('\r', cs2)
    else if e = 't' then some ('\t', cs2)
    else if e = 'u' then
      match hexsAt cs2 with
      | none => none
      | some n =>
        if 0xD800 ≤ n ∧ n < 0xDC00 then
          match lowSurrAt (cs2.drop 4) with
          | some m =>
            some (Char.ofNat (0x10000 + (n - 0xD800) * 0x400 + (m - 0xDC00)),
              (cs2.drop 4).drop 6)
          | none => some (Char.ofNat n, cs2.drop 4)
        else some (Char.ofNat n, cs2.drop 4)
    else none

theorem parseEsc_length :
    ∀ {cs : List Char} {ch : Char} {rest : List Char},
      parseEsc cs = some (ch, rest) → rest.length ≤ cs.length := by
  intro cs ch rest h
  match cs with
  | [] => simp [parseEsc] at h
  | e :: cs2 =>
    rw [parseEsc] at h
    repeat' split at h
    all_goals try simp_all
    all_goals
      (obtain ⟨hc, hr⟩ := h
       subst hr
       simp only [List.length_drop, List.length_cons]
       omega)

/-- Body of a JSON string literal, after the opening quote: returns the
decoded characters and the input after the closing quote.  Strict mode:
raw control characters (below U+0020) are rejected.  The fuel argument
only makes the recursion structural; every call site passes at least the
input length plus one, which always suffices since each step consumes at
least one character. -/
def parseStringBody : Nat → List Char → Option (List Char × List Char)
  | 0, _ => none
  | _ + 1, [] => none
  | fuel + 1, c :: cs =>
    if c = '\"' then some ([], cs)
    else if c = '\\' then
      match parseEsc cs with
      | none => none
      | some (ch, rest) =>
        (parseStringBody fuel rest).map (fun r => (ch :: r.1, r.2))
    else if c.toNat < 0x20 then none
    else (parseStringBody fuel cs).map (fun r => (c :: r.1, r.2))

/-- Value of a list of decimal digits. -/
def digitsVal (ds : List Char) : Nat :=
  ds.foldl (fun a c => 10 * a + (c.toNat - 48)) 0

/-- The fraction part of a JSON number token, if present: a dot and the
following digit run (a bare dot is kept and rejected later). -/
def fracPart (cs : List Char) : List Char :=
  match cs with
  | c :: u => if c = '.' then c :: u.takeWhile isDigitC else []
  | [] => []

/-- The exponent part of a JSON number token, if present and well
formed. -/
def expPart (cs : List Char) : List Char :=
  match cs with
  | e :: u =>
    if e = 'e' ∨ e = 'E' then
      match u with
      | s :: v =>
        if s = '+' ∨ s = '-' then
          if v.takeWhile isDigitC = [] then []
          else e :: s :: v.takeWhile isDigitC
        else if u.takeWhile isDigitC = [] then []
        else e :: u.takeWhile isDigitC
      | [] => []
    else []
  | [] => []

/-- The tail of a JSON number token after the integer part: optional
fraction, optional exponent.  A pure integer becomes `Json.num`; a number
with fraction or exponent keeps its raw token as `Json.fnum`. -/
def parseNumTail (sign intDs cs2 : List Char) : Option (Json × List Char) :=
  if fracPart cs2 = ['.'] then none
  else if fracPart cs2 = [] ∧ expPart (cs2.drop (fracPart cs2).length) = [] then
    some (.num (if sign = ['-'] then -(Int.ofNat (digitsVal intDs))
      else Int.ofNat (digitsVal intDs)), cs2)
  else
    some (.fnum (String.mk (sign ++ intDs ++ fracPart cs2
        ++ expPart (cs2.drop (fracPart cs2).length))),
      (cs2.drop (fracPart cs2).length).drop
        (expPart (cs2.drop (fracPart cs2).length)).length)

/-- The unsigned part of a JSON number token: integer part with no
leading zeros (a leading `0` ends the integer part at once), then the
tail. -/
def parseNumCore (sign : List Char) (cs1 : List Char) :
    Option (Json × List Char) :=
  match cs1 with
  | [] => none
  | d :: t =>
    if ¬ isDigitC d then none
    else if d = '0' then parseNumTail sign ['0'] t
    else parseNumTail sign (d :: t.takeWhile isDigitC) (t.dropWhile isDigitC)

/-- JSON number token: optional minus sign, then the unsigned part. -/
def parseNumTok (cs : List Char) : Option (Json × List Char) :=
  match cs with
  | [] => none
  | c0 :: t0 =>
    if c0 = '-' then parseNumCore ['-'] t0
    else parseNumCore [] (c0 :: t0)

/-- Drop JSON whitespace. -/
def skipWs (cs : List Char) : List Char := cs.dropWhile jsonWs

/-- Python-`dict` insertion: an existing key keeps its position and gets
the new value, a new key is appended. -/
def insertKV (kvs : List (String × Json)) (k : String) (v : Json) :
    List (String × Json) :=
  match kvs with
  | [] => [(k, v)]
  | (k0, v0) :: t => if k0 = k then (k0, v) :: t else (k0, v0) :: insertKV t k v

mutual

/-- Recursive descent JSON value parser (fuel-indexed; running out of fuel
models Python's `RecursionError`, which the extractor's outer handler
turns into the same failure as a parse error). -/
def parseValue : Nat → List Char → Option (Json × List Char)
  | 0, _ => none
  | fuel + 1, cs =>
    match cs with
    | [] => none
    | c :: t =>
      if c = '\x7b' then
        let t' := skipWs t
        match t' with
        | '\x7d' :: u => some (.obj [], u)
        | _ => parseMembersLoop fuel t' []
      else if c = '[' then
        let t' := skipWs t
        match t' with
        | ']' :: u => some (.arr [], u)
        | _ =>
          match parseElemsLoop fuel t' with
          | some (xs, rest) => some (.arr xs, rest)
          | none => none
      else if c = '\"' then
        (parseStringBody (t.length + 1) t).map
          (fun r => (.str (String.mk r.1), r.2))
      else if c = 't' then
        if listIsPre ['r', 'u', 'e'] t then some (.bool true, t.drop 3) else none
      else if c = 'f' then
        if listIsPre ['a', 'l', 's', 'e'] t then some (.bool false, t.drop 4)
        else none
      else if c = 'n' then
        if listIsPre ['u', 'l', 'l'] t then some (.null, t.drop 3) else none
      else parseNumTok cs

/-- Elements of a non-empty JSON array, starting at the first element
(whitespace already skipped). -/
def parseElemsLoop : Nat → List Char → Option (List Json × List Char)
  | 0, _ => none
  | fuel + 1, cs =>
    match parseValue fuel cs with
    | none => none
    | some (v, rest) =>
      match skipWs rest with
      | ',' :: u =>
        match parseElemsLoop fuel (skipWs u) with
        | some (xs, rest2) => some (v :: xs, rest2)
        | none => none
      | ']' :: u => some ([v], u)
      | _ => none

/-- Members of a non-empty JSON object, starting at the first key
(whitespace already skipped). -/
def parseMembersLoop : Nat → List Char → List (String × Json) →
    Option (Json × List Char)
  | 0, _, _ => none
  | fuel + 1, cs, acc =>
    match cs with
    | '\"' :: t =>
      match parseStringBody (t.length + 1) t with
      | none => none
      | some (k, rest) =>
        match skipWs rest with
        | ':' :: u =>
          match parseValue fuel (skipWs u) with
          | none => none
          | some (v, rest2) =>
            let acc2 := insertKV acc (String.mk k) v
            match skipWs rest2 with
            | ',' :: w => parseMembersLoop fuel (skipWs w) acc2
            | '\x7d' :: w => some (.obj acc2, w)
            | _ => none
        | _ => none
    | _ => none

end

/-- Embedding of `json.loads`: skip leading whitespace, parse one value,
require only whitespace after it. -/
def json_loads (s : String) : Option Json :=
  match parseValue (s.length + 1) (skipWs s.toList) with
  | some (v, rest) => if skipWs rest = [] then some v else none
  | none => none

/-! ### Normalisation: code-fence stripping, strip, first bracket -/

/-- The seven characters of a fence-with-language marker, `\x60` being a
backtick. -/
def fenceJson : List Char := ['\x60', '\x60', '\x60', 'j', 's', 'o', 'n']

/-- The three characters of a bare code fence. -/
def fenceBare : List Char := ['\x60', '\x60', '\x60']

theorem takeWhile_add_dropWhile_length (p : Char → Bool) (l : List Char) :
    (l.takeWhile p).length + (l.dropWhile p).length = l.length := by
  have := congrArg List.length (List.takeWhile_append_dropWhile p l)
  rwa [List.length_append] at this

theorem dropWhile_length_le (p : Char → Bool) (l : List Char) :
    (l.dropWhile p).length ≤ l.length := by
  have := takeWhile_add_dropWhile_length p l
  omega

theorem takeWhile_length_le (p : Char → Bool) (l : List Char) :
    (l.takeWhile p).length ≤ l.length := by
  have := takeWhile_add_dropWhile_length p l
  omega

/-- One attempt of the substitution pattern at the current position:
first alternative, a fence-with-language marker followed by greedy `\s*`;
second alternative, a greedy `\s*` run directly followed by a bare fence
(shorter whitespace runs cannot match, as a backtick is required next).
Returns the input after the matched span. -/
def matchFenceAt (cs : List Char) : Option (List Char) :=
  if listIsPre fenceJson cs then some ((cs.drop 7).dropWhile pySpace)
  else if listIsPre fenceBare (cs.dropWhile pySpace) then
    some ((cs.dropWhile pySpace).drop 3)
  else none

theorem matchFenceAt_length {cs rest : List Char}
    (h : matchFenceAt cs = some rest) : rest.length < cs.length := by
  rw [matchFenceAt] at h
  split at h
  · rename_i hpre
    have h7 : 7 ≤ cs.length := by
      have := listIsPre_length hpre
      simpa [fenceJson] using this
    have hd := dropWhile_length_le pySpace (cs.drop 7)
    have h1 := Option.some.inj h
    subst h1
    simp only [List.length_drop] at *
    omega
  · split at h
    · rename_i hpre
      have h3 : 3 ≤ (cs.dropWhile pySpace).length := by
        have := listIsPre_length hpre
        simpa [fenceBare] using this
      have hd := dropWhile_length_le pySpace cs
      have h1 := Option.some.inj h
      subst h1
      simp only [List.length_drop] at *
      omega
    · exact absurd h (by simp)

/-- Embedding of `re.sub` with the fence pattern and empty replacement:
a single left-to-right scan, removing each match and continuing after it.
The fuel only makes the recursion structural; any amount at least the
input length suffices, since every step consumes at least one character. -/
def stripFencesF : Nat → List Char → List Char
  | 0, _ => []
  | _ + 1, [] => []
  | fuel + 1, c :: t =>
    match matchFenceAt (c :: t) with
    | some rest => stripFencesF fuel rest
    | none => c :: stripFencesF fuel t

/-- The fence-stripping pass at its canonical fuel. -/
def stripFences (cs : List Char) : List Char :=
  stripFencesF cs.length cs

/-- Python `str.strip()`. -/
def pyStrip (cs : List Char) : List Char :=
  ((cs.dropWhile pySpace).reverse.dropWhile pySpace).reverse

/-- Embedding of `re.search(r'\[.*', cleaned, re.DOTALL)` followed by
`cleaned = match.group(0)` when a match exists: everything from the first
`[` on, or the unchanged input when there is no `[`. -/
def fromBracket (cs : List Char) : List Char :=
  match cs.dropWhile (fun c => ¬ c = '[') with
  | [] => cs
  | l => l

/-! ### The complete-step-object pattern

`re.findall(r'\{[^\x7b\x7d]*"notes"\s*:\s*"[^"]*"\s*\}', cleaned, re.DOTALL)`
(braces written here as `\x7b`/`\x7d`): after the opening brace, a greedy
run `A` of non-brace characters, then the deterministic tail
`"notes"  ws  :  ws  "  non-quotes  "  ws  closing-brace`.  Backtracking
over the length of `A` prefers the longest `A` whose tail fits. -/

def notBrace (c : Char) : Bool := ¬ (c = '\x7b' ∨ c = '\x7d')

/-- The literal characters `"notes"` (with surrounding quotes). -/
def notesKey : List Char := ['\"', 'n', 'o', 't', 'e', 's', '\"']

/-- The deterministic tail of the pattern starting at the current
position; returns the input after the final closing brace. -/
def tryTail (cs : List Char) : Option (List Char) :=
  if listIsPre notesKey cs then
    match (cs.drop 7).dropWhile pySpace with
    | ':' :: b =>
      match b.dropWhile pySpace with
      | '\"' :: d =>
        match d.dropWhile (fun c => ¬ c = '\"') with
        | '\"' :: e =>
          match e.dropWhile pySpace with
          | '\x7d' :: r => some r
          | _ => none
        | _ => none
      | _ => none
    | _ => none
  else none

/-- Backtracking search over the split of the non-brace run into `A` and
the tail, longest `A` (rightmost tail position) first.  `searchA run tl`
tries the tail at every position of `run ++ tl` that leaves a prefix of
`run` as `A`, preferring the rightmost. -/
def searchA : List Char → List Char → Option (List Char)
  | [], tl => tryTail tl
  | c :: s, tl =>
    match searchA s tl with
    | some r => some r
    | none => tryTail (c :: (s ++ tl))

theorem tryTail_length {cs rest : List Char} (h : tryTail cs = some rest) :
    rest.length < cs.length := by
  rw [tryTail] at h
  split at h
  case isTrue hpre =>
    have h7 : 7 ≤ cs.length := by
      have := listIsPre_length hpre
      simpa [notesKey] using this
    split at h
    next a hA =>
      split at h
      next b hB =>
        split at h
        next d hD =>
          split at h
          next r hE =>
            have h1 := Option.some.inj h
            subst h1
            have dA : (':' :: a).length ≤ (cs.drop 7).length :=
              hA ▸ dropWhile_length_le _ _
            have dB : ('\"' :: b).length ≤ a.length :=
              hB ▸ dropWhile_length_le _ _
            have dD : ('\"' :: d).length ≤ b.length :=
              hD ▸ dropWhile_length_le _ _
            have dE : ('\x7d' :: r).length ≤ d.length :=
              hE ▸ dropWhile_length_le _ _
            simp only [List.length_cons, List.length_drop] at dA dB dD dE
            omega
          next => simp at h
        next => simp at h
      next => simp at h
    next => simp at h
  case isFalse => simp at h

theorem searchA_length {s tl rest : List Char}
    (h : searchA s tl = some rest) : rest.length < s.length + tl.length := by
  induction s with
  | nil => simpa using tryTail_length h
  | cons c s ih =>
    rw [searchA] at h
    split at h
    · rename_i r hr
      have := ih (hr ▸ (Option.some.inj h ▸ rfl))
      simp only [List.length_cons]
      omega
    · have := tryTail_length h
      simp only [List.length_cons, List.length_append] at *
      omega

/-- One attempt of the step-object pattern at the current position:
requires an opening brace, then searches for the split.  Returns the
matched span and the input after it. -/
def matchNotesObjAt (cs : List Char) : Option (List Char × List Char) :=
  match cs with
  | c :: t =>
    if c = '\x7b' then
      match searchA (t.takeWhile notBrace) (t.drop (t.takeWhile notBrace).length) with
      | some rest => some ((c :: t).take ((c :: t).length - rest.length), rest)
      | none => none
    else none
  | [] => none

theorem matchNotesObjAt_length {cs m rest : List Char}
    (h : matchNotesObjAt cs = some (m, rest)) : rest.length < cs.length := by
  match cs with
  | [] => simp [matchNotesObjAt] at h
  | c :: t =>
    rw [matchNotesObjAt] at h
    split at h
    · split at h
      · rename_i r hr
        have h1 := searchA_length hr
        have h3 : r = rest := congrArg Prod.snd (Option.some.inj h)
        subst h3
        have h4 := takeWhile_length_le notBrace t
        simp only [List.length_drop, List.length_cons] at *
        omega
      · simp at h
    · simp at h

/-- Embedding of `re.findall` with the step-object pattern: scan left to
right, record each match and continue after it.  The fuel only makes the
recursion structural; any amount at least the input length suffices,
since every step consumes at least one character. -/
def findAllNotesF : Nat → List Char → List (List Char)
  | 0, _ => []
  | _ + 1, [] => []
  | fuel + 1, c :: t =>
    match matchNotesObjAt (c :: t) with
    | some (m, rest) => m :: findAllNotesF fuel rest
    | none => findAllNotesF fuel t

/-- The scan at its canonical fuel. -/
def findAllNotes (cs : List Char) : List (List Char) :=
  findAllNotesF cs.length cs

/-- Python `str.rfind` restricted to a non-empty needle: index of the
last occurrence, if any. -/
def rfindList (hay pat : List Char) : Option Nat :=
  match hay with
  | [] => if listIsPre pat [] then some 0 else none
  | c :: t =>
    match rfindList t pat with
    | some i => some (i + 1)
    | none => if listIsPre pat (c :: t) then some 0 else none

/-! ### The extractor cascade (`_parse_json_safely`) -/

/-- `cleaned = re.sub(fences, '', text).strip()` followed by the
first-bracket search. -/
def cleanText (t : String) : List Char :=
  fromBracket (pyStrip (stripFences t.toList))

/-- The primary repair: find every complete step object, truncate just
after the last occurrence of the last one (`str.rfind`, `-1` when absent,
exactly as in the source), append `]`, and reparse. -/
def primaryRepair (cleaned : List Char) : Option Json :=
  match (findAllNotes cleaned).getLast? with
  | none => none
  | some lastObj =>
    let idx : Int := match rfindList cleaned lastObj with
      | some i => (i : Int)
      | none => -1
    json_loads (String.mk (cleaned.take (idx + lastObj.length).toNat ++ [']']))

/-- The fallback suffixes `']', '\x7d]', '"\x7d]', '""\x7d]', '":""\x7d]'`
(braces written as `\x7d`). -/
def suffixList : List String :=
  ["]", "\x7d]", "\"\x7d]", "\"\"\x7d]", "\":\"\"\x7d]"]

/-- The fallback repair: append each suffix in order and return the first
successful parse. -/
def trySuffixes : List String → List Char → Option Json
  | [], _ => none
  | sfx :: rest, cleaned =>
    match json_loads (String.mk (cleaned ++ sfx.toList)) with
    | some v => some v
    | none => trySuffixes rest cleaned

/-- Embedding of `_parse_json_safely`: the `None` guard, normalisation,
direct parse, primary repair, then the suffix fallbacks; every stage's
failure (a `JSONDecodeError` in the source) falls through to the next,
and total failure yields `none`. -/
def parse_json_safely (text : Option String) : Option Json :=
  match text with
  | none => none
  | some t =>
    let cleaned := cleanText t
    match json_loads (String.mk cleaned) with
    | some v => some v
    | none =>
      match primaryRepair cleaned with
      | some v => some v
      | none => trySuffixes suffixList cleaned

/-- Embedding of `_generate_steps_batch`'s data path: the prompt assembly
and debug logging have no effect on the returned value, which is exactly
the extractor applied to the client's response text. -/
def generate_steps_batch (response : Option String) : Option Json :=
  parse_json_safely response

/-! ### The step-count extractor (`_get_total_steps`) -/

/-- Leftmost maximal run of digits (`re.search(r'\d+', response)`, with
`\d` taken over ASCII digits). -/
def firstDigitRun (cs : List Char) : List Char :=
  (cs.dropWhile (fun c => ¬ isDigitC c)).takeWhile isDigitC

/-- Embedding of `_get_total_steps` as a function of the client's
response: `if response:` is Python truthiness (fails on `None` and on the
empty string), then the first digit run is converted by `int`. -/
def get_total_steps (response : Option String) : Option Nat :=
  match response with
  | none => none
  | some s =>
    if s.toList.length ≠ 0 then
      match firstDigitRun s.toList with
      | [] => none
      | ds => some (digitsVal ds)
    else none

/-! ### The orchestrator (`generate_assembly_steps`) -/

/-- The fallback applied by the orchestrator to the step-count
extraction: `if total_steps is None or total_steps < 1: total_steps = 13`. -/
def effectiveTotal (r : Option Nat) : Nat :=
  match r with
  | none => 13
  | some v => if v < 1 then 13 else v

/-- Python `range(start, stop, step)` for a positive step: the values
`start, start + step, …` below `stop`. -/
def pyRange (start stop step : Nat) : List Nat :=
  (List.range ((stop - start + step - 1) / step)).map (fun k => start + step * k)

/-- The windows of the loop `for start in range(1, total_steps + 1, 4)`
with `end = min(start + 3, total_steps)`. -/
def windows (total : Nat) : List (Nat × Nat) :=
  (pyRange 1 (total + 1) 4).map (fun s => (s, min (s + 3) total))

/-- Loop-style characterization of the same windows, convenient for
induction. -/
def windowsFrom (total start : Nat) : List (Nat × Nat) :=
  if start ≤ total then (start, min (start + 3) total) :: windowsFrom total (start + 4)
  else []
termination_by total + 1 - start

/-- Python truthiness of a parsed JSON value (`if batch_steps:`).  A
float literal is compared as its token text (`0.0`-like tokens are falsy). -/
def pyTruthy : Json → Bool
  | .null => false
  | .bool b => b
  | .num n => ¬ n = 0
  | .fnum tok => ¬ (tok.toList.all (fun c => c = '0' ∨ c = '.' ∨ c = '-'))
  | .str s => ¬ s.toList.length = 0
  | .arr xs => ¬ xs.isEmpty
  | .obj kvs => ¬ kvs.isEmpty

/-- Python `list.extend(x)`: extends with the elements of a list, the
characters of a string, or the keys of a dict; any other argument raises
`TypeError`. -/
def pyExtend (acc : List Json) (j : Json) : Except String (List Json) :=
  match j with
  | .arr xs => .ok (acc ++ xs)
  | .str s => .ok (acc ++ s.toList.map (fun c => .str (String.mk [c])))
  | .obj kvs => .ok (acc ++ kvs.map (fun kv => .str kv.1))
  | _ => .error "TypeError: not iterable"

/-- The orchestrator's batch loop: for each window call the batch
generator; a truthy result is appended with `extend`, a falsy or `None`
result is skipped; the loop never stops early and never retries. -/
def runBatches (batchResp : Nat → Nat → Option String) :
    List (Nat × Nat) → List Json → Except String (List Json)
  | [], acc => .ok acc
  | (s, e) :: ws, acc =>
    match generate_steps_batch (batchResp s e) with
    | none => runBatches batchResp ws acc
    | some j =>
      if pyTruthy j then
        match pyExtend acc j with
        | .ok acc2 => runBatches batchResp ws acc2
        | .error m => .error m
      else runBatches batchResp ws acc

/-- Embedding of `generate_assembly_steps`, parametrised by the text
client's responses: `countResp` is the response to the step-count prompt
and `batchResp start end` the response to the batch prompt for a window. -/
def generate_assembly_steps (countResp : Option String)
    (batchResp : Nat → Nat → Option String) : Except String (List Json) :=
  runBatches batchResp (windows (effectiveTotal (get_total_steps countResp))) []

/-! ### The text-generation client (`generate_text`) -/

/-- Outcome of the HTTP round trip in `generate_text`: a timeout, any
other transport/HTTP error (including `raise_for_status`), or a parsed
response body. -/
inductive HttpOutcome where
  | timeout : HttpOutcome
  | httpError (msg : String) : HttpOutcome
  | ok (body : Json) : HttpOutcome

/-- First binding of a key in a parsed JSON object. -/
def lookupJ (kvs : List (String × Json)) (key : String) : Option Json :=
  match kvs with
  | [] => none
  | (k, v) :: t => if k = key then some v else lookupJ t key

/-- Substring test, for Python `in` on strings. -/
def listContainsSub (hay pat : List Char) : Bool :=
  match hay with
  | [] => listIsPre pat []
  | _ :: t => listIsPre pat hay || listContainsSub t pat

/-- Python `key in j` / `key not in j` (negated here): defined on dicts
(key membership), lists (element equality) and strings (substring);
any other receiver raises `TypeError`. -/
def pyNotIn (key : String) (j : Json) : Except String Bool :=
  match j with
  | .obj kvs => .ok ((lookupJ kvs key).isNone)
  | .arr xs => .ok (¬ xs.contains (.str key))
  | .str s => .ok (¬ listContainsSub s.toList key.toList)
  | _ => .error "TypeError: argument of type is not iterable"

/-- Python `len(j)`: defined on lists, dicts and strings. -/
def pyLen (j : Json) : Except String Nat :=
  match j with
  | .arr xs => .ok xs.length
  | .obj kvs => .ok kvs.length
  | .str s => .ok s.toList.length
  | _ => .error "TypeError: has no len"

/-- Python `j[0]`: first element of a list, first character of a string;
a dict raises `KeyError 0`, anything else `TypeError`. -/
def pyIndex0 (j : Json) : Except String Json :=
  match j with
  | .arr (x :: _) => .ok x
  | .arr [] => .error "IndexError"
  | .str s =>
    match s.toList with
    | c :: _ => .ok (.str (String.mk [c]))
    | [] => .error "IndexError"
  | _ => .error "TypeError / KeyError"

/-- Python `j[key]` with a string key: dict lookup (`KeyError` when
absent); any other receiver raises. -/
def pyGetItemS (j : Json) (key : String) : Except String Json :=
  match j with
  | .obj kvs =>
    match lookupJ kvs key with
    | some v => .ok v
    | none => .error "KeyError"
  | _ => .error "TypeError"

/-- Python `j.get(key, default)`: defined on dicts only. -/
def pyGetD (j : Json) (key : String) (dflt : Json) : Except String Json :=
  match j with
  | .obj kvs =>
    match lookupJ kvs key with
    | some v => .ok v
    | none => .ok dflt
  | _ => .error "AttributeError"

/-- The distinct results of `generate_text`, one per logged branch of the
source: the successful text, the five envelope failures, the timeout, and
any other transport error (which also absorbs exceptions raised while
inspecting the envelope, caught by the function's outer handler). -/
inductive GenResult where
  | okText (j : Json) : GenResult
  | noCandidates : GenResult
  | emptyCandidates : GenResult
  | filtered (finishReason : Json) : GenResult
  | noParts : GenResult
  | emptyParts : GenResult
  | timeoutFail : GenResult
  | transportFail (msg : String) : GenResult
deriving DecidableEq, Repr

/-- The envelope checks of `generate_text` applied to a parsed response
body, with Python exceptions as `Except.error`. -/
def genTextEnvelope (body : Json) : Except String GenResult := do
  let noCand ← pyNotIn "candidates" body
  if noCand then return .noCandidates
  let cands ← pyGetItemS body "candidates"
  let n ← pyLen cands
  if n = 0 then return .emptyCandidates
  let cand ← pyIndex0 cands
  let noContent ← pyNotIn "content" cand
  if noContent then
    let fr ← pyGetD cand "finishReason" (.str "UNKNOWN")
    return .filtered fr
  let content ← pyGetItemS cand "content"
  let noParts ← pyNotIn "parts" content
  if noParts then return .noParts
  let parts ← pyGetItemS content "parts"
  let np ← pyLen parts
  if np = 0 then return .emptyParts
  let p0 ← pyIndex0 parts
  let txt ← pyGetItemS p0 "text"
  return .okText txt

/-- Embedding of `generate_text` keeping the failure cause: a timeout and
any other transport error map to their own results; with a response body
the envelope checks run under the outer `except Exception` handler, which
reports any raised exception like a transport error. -/
def generateTextR (o : HttpOutcome) : GenResult :=
  match o with
  | .timeout => .timeoutFail
  | .httpError m => .transportFail m
  | .ok body =>
    match genTextEnvelope body with
    | .ok r => r
    | .error e => .transportFail e

/-- The value `generate_text` returns to its caller: the extracted text
on success, `None` on every failure. -/
def generate_text (o : HttpOutcome) : Option Json :=
  match generateTextR o with
  | .okText j => some j
  | _ => none

/-! ### Auxiliary notions used only to state properties -/

/-- The integer interval covered by a list of windows, in order. -/
def windowCover : List (Nat × Nat) → List Nat
  | [] => []
  | w :: ws => List.range' w.1 (w.2 + 1 - w.1) ++ windowCover ws

/-- The steps contributed by one batch outcome: the elements of a parsed
array, nothing otherwise. -/
def batchArr (r : Option Json) : List Json :=
  match r with
  | some (.arr xs) => xs
  | _ => []

/-- The window-order concatenation of all batches' contributed steps. -/
def concatBatches (batchResp : Nat → Nat → Option String) :
    List (Nat × Nat) → List Json
  | [] => []
  | (s, e) :: ws =>
    batchArr (generate_steps_batch (batchResp s e)) ++ concatBatches batchResp ws

/-- A batch outcome that is either a failure or a parsed array. -/
def isNoneOrArr (r : Option Json) : Prop :=
  r = none ∨ ∃ xs, r = some (.arr xs)

/-- A step object with number `n` and schematic text fields, as produced
by the scenario stubs. -/
def mkStep (n : Nat) : Json :=
  .obj [("step_number", .num n), ("title", .str ("T" ++ toString n)),
    ("description", .str ("D" ++ toString n)),
    ("notes", .str ("N" ++ toString n))]

/-- The client stub of the end-to-end scenario: a valid 4-step array for
window (1,4), an array truncated inside its third object for (5,8), and a
transport failure (no text) for (9,9). -/
def c4Resp : Nat → Nat → Option String := fun s e =>
  if s = 1 ∧ e = 4 then
    some ("[\x7b\"step_number\":1,\"title\":\"T1\",\"description\":\"D1\",\"notes\":\"N1\"\x7d," ++
      "\x7b\"step_number\":2,\"title\":\"T2\",\"description\":\"D2\",\"notes\":\"N2\"\x7d," ++
      "\x7b\"step_number\":3,\"title\":\"T3\",\"description\":\"D3\",\"notes\":\"N3\"\x7d," ++
      "\x7b\"step_number\":4,\"title\":\"T4\",\"description\":\"D4\",\"notes\":\"N4\"\x7d]")
  else if s = 5 ∧ e = 8 then
    some ("[\x7b\"step_number\":5,\"title\":\"T5\",\"description\":\"D5\",\"notes\":\"N5\"\x7d," ++
      "\x7b\"step_number\":6,\"title\":\"T6\",\"description\":\"D6\",\"notes\":\"N6\"\x7d," ++
      "\x7b\"step_number\":7,\"titl")
  else none

/-- A client stub whose batch response is a JSON array of values that are
not step objects. -/
def c10Resp : Nat → Nat → Option String := fun _ _ => some "[\"oops\", 7]"

/-! ### A schematic family of well-formed step-object texts

Quantified statements about the extractor range over renderings of step
objects: a step number given by its digits and three text fields over an
alphabet that needs no JSON escaping (no quote, no backslash, no brace,
no backtick, no control character). -/

/-- A step object given by its rendered parts. -/
structure StepObj where
  num : List Char
  title : List Char
  description : List Char
  notes : List Char

/-- Characters allowed in a field: anything that needs no JSON string
escaping and cannot interfere with the fence or step-object patterns. -/
def goodChar (c : Char) : Prop :=
  ¬ c = '\"' ∧ ¬ c = '\\' ∧ ¬ c = '\x7b' ∧ ¬ c = '\x7d' ∧ ¬ c = '\x60' ∧
    0x20 ≤ c.toNat

instance : DecidablePred goodChar := fun c => by
  unfold goodChar
  infer_instance

/-- A field: every character is allowed. -/
def goodField (l : List Char) : Prop := ∀ c ∈ l, goodChar c

instance : DecidablePred goodField := fun l => by
  unfold goodField
  infer_instance

/-- A JSON integer token: non-empty digits without a leading zero. -/
def goodDigits (ds : List Char) : Prop :=
  ds ≠ [] ∧ (∀ c ∈ ds, isDigitC c) ∧ (ds.head? = some '0' → ds = ['0'])

instance : DecidablePred goodDigits := fun ds => by
  unfold goodDigits
  infer_instance

/-- A fully well-formed schematic step object. -/
def StepObj.good (o : StepObj) : Prop :=
  goodDigits o.num ∧ goodField o.title ∧ goodField o.description ∧
    goodField o.notes

instance : DecidablePred StepObj.good := fun o => by
  unfold StepObj.good
  infer_instance

/-- The characters `notes`. -/
def notesChars : List Char := ['n', 'o', 't', 'e', 's']

/-- The characters `step_number`. -/
def snChars : List Char := ['s', 't', 'e', 'p', '_', 'n', 'u', 'm', 'b', 'e', 'r']

/-- The characters `title`. -/
def titleChars : List Char := ['t', 'i', 't', 'l', 'e']

/-- The characters `description`. -/
def descChars : List Char := ['d', 'e', 's', 'c', 'r', 'i', 'p', 't', 'i', 'o', 'n']

/-- The part of a rendered step object before its notes key:
`"step_number":N,"title":"T","description":"D",` in right-nested form. -/
def objP (o : StepObj) : List Char :=
  '\"' :: (snChars ++ '\"' :: ':' ::
    (o.num ++ ',' :: '\"' :: (titleChars ++ '\"' :: ':' :: '\"' ::
      (o.title ++ '\"' :: ',' :: '\"' :: (descChars ++ '\"' :: ':' :: '\"' ::
        (o.description ++ ['\"', ',']))))))

/-- The notes key/value region of a rendered step object, quotes
included: `"notes":"X"`. -/
def notesRegion (o : StepObj) : List Char :=
  '\"' :: (notesChars ++ '\"' :: ':' :: '\"' :: (o.notes ++ ['\"']))

/-- Everything of a rendered step object strictly between its braces. -/
def objInterior (o : StepObj) : List Char := objP o ++ notesRegion o

/-- A rendered step object
`\x7b"step_number":N,"title":"T","description":"D","notes":"X"\x7d`
(braces written as `\x7b`/`\x7d`). -/
def renderObj (o : StepObj) : List Char :=
  '\x7b' :: objInterior o ++ ['\x7d']

/-- The parsed value of a rendered step object. -/
def StepObj.toJson (o : StepObj) : Json :=
  .obj [("step_number", .num (Int.ofNat (digitsVal o.num))),
    ("title", .str (String.mk o.title)),
    ("description", .str (String.mk o.description)),
    ("notes", .str (String.mk o.notes))]

/-- The tail of a rendered array: a leading comma before each further
object. -/
def renderTail : List StepObj → List Char
  | [] => []
  | o :: rest => ',' :: (renderObj o ++ renderTail rest)

/-- The comma-separated renderings of a non-empty object list. -/
def renderList (o : StepObj) (rest : List StepObj) : List Char :=
  renderObj o ++ renderTail rest

/-- The full rendering of a non-empty JSON array of step objects. -/
def renderArr (o : StepObj) (rest : List StepObj) : List Char :=
  '[' :: renderList o rest ++ [']']

/-- The truncated generation: a valid array opening, complete step
objects, a separator, and an incomplete trailing fragment. -/
def renderTrunc (o : StepObj) (rest : List StepObj) (frag : List Char) :
    List Char :=
  '[' :: renderList o rest ++ ',' :: frag

/-- A trailing fragment of an incomplete step object: it opens a brace
that is never closed, contains no further brace and no backtick, and does
not end in whitespace. -/
def fragOk (frag : List Char) : Prop :=
  ∃ t, frag = '\x7b' :: t ∧
    (∀ c ∈ t, ¬ c = '\x7b' ∧ ¬ c = '\x7d' ∧ ¬ c = '\x60') ∧
    (∀ c, ('\x7b' :: t).getLast? = some c → ¬ pySpace c = true)

/-! ## Window partitioning lemmas -/

theorem windowsFrom_cover (total : Nat) :
    ∀ n s, total + 1 - s ≤ n →
      windowCover (windowsFrom total s) = List.range' s (total + 1 - s) := by
  intro n
  induction n with
  | zero =>
    intro s h
    rw [windowsFrom.eq_def]
    have hs : ¬ s ≤ total := by omega
    have h0 : total + 1 - s = 0 := by omega
    simp [hs, h0, windowCover]
  | succ n ih =>
    intro s h
    rw [windowsFrom.eq_def]
    by_cases hs : s ≤ total
    · simp only [hs, if_true, windowCover]
      rw [ih (s + 4) (by omega)]
      by_cases h3 : s + 3 ≤ total
      · have hmin : min (s + 3) total = s + 3 := by omega
        rw [hmin]
        have h4 : s + 3 + 1 - s = 4 := by omega
        rw [h4]
        have := List.range'_append_1 s 4 (total + 1 - (s + 4))
        rw [this]
        congr 1
        omega
      · have hmin : min (s + 3) total = total := by omega
        rw [hmin]
        have h0 : total + 1 - (s + 4) = 0 := by omega
        rw [h0]
        simp
    · have h0 : total + 1 - s = 0 := by omega
      simp [hs, h0, windowCover]

theorem windowsFrom_chain (total : Nat) :
    ∀ n s, total + 1 - s ≤ n →
      List.Chain' (fun a b : Nat × Nat => b.1 = a.2 + 1) (windowsFrom total s) := by
  intro n
  induction n with
  | zero =>
    intro s h
    rw [windowsFrom.eq_def]
    have hs : ¬ s ≤ total := by omega
    simp [hs]
  | succ n ih =>
    intro s h
    rw [windowsFrom.eq_def]
    by_cases hs : s ≤ total
    · simp only [hs, if_true]
      rw [List.chain'_cons']
      refine ⟨?_, ih (s + 4) (by omega)⟩
      intro y hy
      rw [windowsFrom.eq_def] at hy
      by_cases h4 : s + 4 ≤ total
      · simp only [h4, if_true, List.head?_cons, Option.mem_def,
          Option.some.injEq] at hy
        subst hy
        have : min (s + 3) total = s + 3 := by omega
        simp [this]
      · simp [h4] at hy
    · simp [hs]

theorem windowsFrom_mem_le (total : Nat) :
    ∀ n s, total + 1 - s ≤ n →
      ∀ w ∈ windowsFrom total s, w.1 ≤ w.2 ∧ w.2 ≤ total := by
  intro n
  induction n with
  | zero =>
    intro s h w hw
    rw [windowsFrom.eq_def] at hw
    have hs : ¬ s ≤ total := by omega
    simp [hs] at hw
  | succ n ih =>
    intro s h w hw
    rw [windowsFrom.eq_def] at hw
    by_cases hs : s ≤ total
    · simp only [hs, if_true, List.mem_cons] at hw
      rcases hw with rfl | hw
      · refine ⟨?_, ?_⟩ <;> simp <;> omega
      · exact ih (s + 4) (by omega) w hw
    · simp [hs] at hw

theorem windows_eq_windowsFrom (total : Nat) :
    ∀ n s, total + 1 - s ≤ n →
      (pyRange s (total + 1) 4).map (fun st => (st, min (st + 3) total))
        = windowsFrom total s := by
  intro n
  induction n with
  | zero =>
    intro s h
    rw [windowsFrom.eq_def]
    have hs : ¬ s ≤ total := by omega
    rw [if_neg hs]
    simp only [pyRange, List.map_eq_nil_iff, List.range_eq_nil]
    omega
  | succ n ih =>
    intro s h
    rw [windowsFrom.eq_def]
    by_cases hs : s ≤ total
    · rw [if_pos hs]
      rw [← ih (s + 4) (by omega)]
      have hc : (total + 1 - s + 4 - 1) / 4
          = (total + 1 - (s + 4) + 4 - 1) / 4 + 1 := by omega
      simp only [pyRange, hc, List.range_succ_eq_map, List.map_cons,
        List.map_map]
      refine congrArg₂ List.cons (by simp) ?_
      apply List.map_congr_left
      intro k hk
      simp only [Function.comp_apply]
      have : s + 4 * (k + 1) = s + 4 + 4 * k := by ring
      rw [this]
    · rw [if_neg hs]
      simp only [pyRange, List.map_eq_nil_iff, List.range_eq_nil]
      omega

theorem windows_windowsFrom (total : Nat) : windows total = windowsFrom total 1 :=
  windows_eq_windowsFrom total (total + 1 - 1) 1 le_rfl

theorem runBatches_concat (batchResp : Nat → Nat → Option String)
    (h : ∀ s e, isNoneOrArr (generate_steps_batch (batchResp s e))) :
    ∀ ws acc, runBatches batchResp ws acc = .ok (acc ++ concatBatches batchResp ws) := by
  intro ws
  induction ws with
  | nil => intro acc; simp [runBatches, concatBatches]
  | cons w ws ih =>
    intro acc
    obtain ⟨s, e⟩ := w
    rcases h s e with hb | ⟨xs, hb⟩
    · simp only [runBatches, concatBatches, hb]
      rw [ih acc]
      simp [batchArr]
    · by_cases hx : xs.isEmpty
      · have hxe : xs = [] := by simpa using hx
        subst hxe
        simp only [runBatches, concatBatches, hb]
        rw [if_neg (by decide)]
        rw [ih acc]
        simp [batchArr]
      · simp only [runBatches, concatBatches, hb]
        rw [if_pos (by simp [pyTruthy, hx])]
        simp only [pyExtend]
        rw [ih (acc ++ xs)]
        simp [batchArr]

/-! ## Parsing lemmas for rendered step objects -/

theorem takeWhile_append_not {p : Char → Bool} {xs : List Char} {y : Char}
    (r : List Char) (hxs : ∀ c ∈ xs, p c = true) (hy : p y = false) :
    (xs ++ y :: r).takeWhile p = xs ∧ (xs ++ y :: r).dropWhile p = y :: r := by
  induction xs with
  | nil => simp [List.takeWhile_cons, List.dropWhile_cons, hy]
  | cons c t ih =>
    have hc : p c = true := hxs c (by simp)
    have iht := ih (fun c hc' => hxs c (by simp [hc']))
    simp [List.takeWhile_cons, List.dropWhile_cons, hc, iht.1, iht.2]

theorem skipWs_cons {c : Char} (t : List Char) (h : jsonWs c = false) :
    skipWs (c :: t) = c :: t := by
  simp [skipWs, List.dropWhile_cons, h]

theorem parseStringBody_good :
    ∀ (T : List Char) (fuel : Nat) (rest : List Char), goodField T →
      T.length < fuel →
      parseStringBody fuel (T ++ '\"' :: rest) = some (T, rest) := by
  intro T
  induction T with
  | nil =>
    intro fuel rest hg hf
    match fuel, hf with
    | f + 1, _ => simp [parseStringBody]
  | cons c t ih =>
    intro fuel rest hg hf
    obtain ⟨h1, h2, _, _, _, h6⟩ := hg c (by simp)
    match fuel, hf with
    | f + 1, hf =>
      simp only [List.cons_append, parseStringBody]
      rw [if_neg h1, if_neg h2, if_neg (by omega)]
      simp only [List.append_eq]
      rw [ih f rest (fun x hx => hg x (by simp [hx]))
        (by simpa using Nat.lt_of_succ_lt_succ hf)]
      rfl

theorem parseNumTok_digits (ds : List Char) (rest : List Char)
    (hg : goodDigits ds) :
    parseNumTok (ds ++ ',' :: rest)
      = some (.num (Int.ofNat (digitsVal ds)), ',' :: rest) := by
  obtain ⟨hne, hdig, hz⟩ := hg
  match ds, hne with
  | d :: dt, _ =>
    have hd : isDigitC d = true := hdig d (by simp)
    have hdm : ¬ d = '-' := by
      intro hcon
      rw [hcon] at hd
      simp [isDigitC] at hd
    have hfrac : fracPart (',' :: rest) = [] := by
      simp [fracPart]
    have hexp : expPart (',' :: rest) = [] := by
      simp [expPart]
    by_cases h0 : d = '0'
    · have hds : dt = [] := by
        have := hz (by simp [h0])
        simpa [h0] using congrArg List.tail this
      subst hds
      subst h0
      simp [parseNumTok, parseNumCore, parseNumTail, hfrac, hexp, digitsVal, hd]
    · have htk := @takeWhile_append_not isDigitC dt ','
        rest (fun c hc => hdig c (by simp [hc])) (by decide)
      simp only [List.cons_append, parseNumTok, if_neg hdm, parseNumCore,
        if_neg (show ¬ (¬ isDigitC d = true) by simp [hd]), if_neg h0,
        htk.1, htk.2, hfrac, hexp]
      simp [parseNumTail, hfrac, hexp]

theorem digit_facts {d : Char} (hd : isDigitC d = true) :
    jsonWs d = false ∧ ¬ d = '\x7b' ∧ ¬ d = '[' ∧ ¬ d = '\"' ∧ ¬ d = 't' ∧
      ¬ d = 'f' ∧ ¬ d = 'n' := by
  refine ⟨?_, ?_, ?_, ?_, ?_, ?_, ?_⟩
  all_goals first
  | (rw [jsonWs]
     have h1 : ¬ d = ' ' := fun e => absurd hd (by rw [e]; decide)
     have h2 : ¬ d = '\t' := fun e => absurd hd (by rw [e]; decide)
     have h3 : ¬ d = '\n' := fun e => absurd hd (by rw [e]; decide)
     have h4 : ¬ d = '\r' := fun e => absurd hd (by rw [e]; decide)
     simp [h1, h2, h3, h4])
  | exact fun e => absurd hd (by rw [e]; decide)

/-- A string value at the head of the input parses to itself. -/
theorem parseValue_str (V : List Char) (g : Nat) (w : List Char)
    (hg : goodField V) :
    parseValue (g + 1) ('\"' :: (V ++ '\"' :: w))
      = some (.str (String.mk V), w) := by
  simp only [parseValue]
  rw [if_pos trivial]
  rw [parseStringBody_good V ((V ++ '\"' :: w).length + 1) w hg
    (by simp; omega)]
  rfl

/-- A number value at the head of the input, followed by a comma, parses
to its digits' value. -/
theorem parseValue_num (ds : List Char) (g : Nat) (w : List Char)
    (hg : goodDigits ds) :
    parseValue (g + 1) (ds ++ ',' :: w)
      = some (.num (Int.ofNat (digitsVal ds)), ',' :: w) := by
  obtain ⟨hne, hdig, hz⟩ := hg
  match ds, hne with
  | d :: dt, _ =>
    have hd := hdig d (by simp)
    obtain ⟨hw, hb, hbr, hq, ht, hf, hn⟩ := digit_facts hd
    simp only [List.cons_append, parseValue]
    rw [if_neg hb, if_neg hbr, if_neg hq, if_neg ht, if_neg hf, if_neg hn]
    exact parseNumTok_digits (d :: dt) w ⟨by simp, hdig, hz⟩

/-- One member step of the object parser: read a key and hand over to the
value parser. -/
theorem parseMembersLoop_key (K : List Char) (g : Nat) (u : List Char)
    (acc : List (String × Json)) (hg : goodField K) :
    parseMembersLoop (g + 1) ('\"' :: (K ++ '\"' :: ':' :: u)) acc
      = (match parseValue g (skipWs u) with
         | none => none
         | some (v, rest2) =>
           match skipWs rest2 with
           | ',' :: w =>
             parseMembersLoop g (skipWs w) (insertKV acc (String.mk K) v)
           | '\x7d' :: w => some (.obj (insertKV acc (String.mk K) v), w)
           | _ => none) := by
  simp only [parseMembersLoop]
  rw [parseStringBody_good K ((K ++ '\"' :: ':' :: u).length + 1) (':' :: u)
    hg (by simp; omega)]
  dsimp only
  rw [skipWs_cons _ (by decide)]
  rfl

/-- Digit runs are not whitespace: `skipWs` keeps them. -/
theorem skipWs_digits (ds r : List Char) (hg : goodDigits ds) :
    skipWs (ds ++ r) = ds ++ r := by
  obtain ⟨hne, hdig, _⟩ := hg
  match ds, hne with
  | d :: dt, _ =>
    rw [List.cons_append]
    exact skipWs_cons _ (digit_facts (hdig d (by simp))).1

/-- A rendered step object at the head of the input parses to its
expected value, leaving exactly the continuation. -/
theorem parseValue_renderObj (o : StepObj) (f : Nat) (rest : List Char)
    (hg : o.good) :
    parseValue (f + 6) (renderObj o ++ rest) = some (o.toJson, rest) := by
  obtain ⟨hnum, htitle, hdesc, hnotes⟩ := hg
  have esn : String.mk snChars = "step_number" := by decide
  have eti : String.mk titleChars = "title" := by decide
  have ede : String.mk descChars = "description" := by decide
  have eno : String.mk notesChars = "notes" := by decide
  simp only [renderObj, objInterior, objP, notesRegion, List.cons_append,
    List.append_assoc, List.nil_append]
  show parseValue ((f + 5) + 1) _ = _
  simp only [parseValue]
  rw [if_pos trivial]
  rw [skipWs_cons _ (by decide)]
  show parseMembersLoop ((f + 4) + 1) _ _ = _
  rw [parseMembersLoop_key snChars (f + 4) _ [] (by decide)]
  rw [skipWs_digits _ _ hnum]
  rw [show ((f : Nat) + 4) = (f + 3) + 1 from rfl]
  rw [parseValue_num o.num (f + 3) _ hnum]
  show parseMembersLoop ((f + 3) + 1) _ _ = _
  rw [skipWs_cons _ (by decide)]
  rw [parseMembersLoop_key titleChars (f + 3) _ _ (by decide)]
  rw [skipWs_cons _ (by decide)]
  rw [show ((f : Nat) + 3) = (f + 2) + 1 from rfl]
  rw [parseValue_str o.title (f + 2) _ htitle]
  show parseMembersLoop ((f + 2) + 1) _ _ = _
  rw [skipWs_cons _ (by decide)]
  rw [parseMembersLoop_key descChars (f + 2) _ _ (by decide)]
  rw [skipWs_cons _ (by decide)]
  rw [show ((f : Nat) + 2) = (f + 1) + 1 from rfl]
  rw [parseValue_str o.description (f + 1) _ hdesc]
  show parseMembersLoop ((f + 1) + 1) _ _ = _
  rw [skipWs_cons _ (by decide)]
  rw [parseMembersLoop_key notesChars (f + 1) _ _ (by decide)]
  rw [skipWs_cons _ (by decide)]
  rw [parseValue_str o.notes f _ hnotes]
  show some (Json.obj (insertKV (insertKV (insertKV (insertKV []
      (String.mk snChars) (Json.num (Int.ofNat (digitsVal o.num))))
      (String.mk titleChars) (Json.str (String.mk o.title)))
      (String.mk descChars) (Json.str (String.mk o.description)))
      (String.mk notesChars) (Json.str (String.mk o.notes))), rest)
    = some (o.toJson, rest)
  simp only [insertKV, esn, eti, ede, eno, StepObj.toJson]
  have h1 : ¬ ("step_number" : String) = "notes" := by decide
  have h2 : ¬ ("title" : String) = "notes" := by decide
  have h3 : ¬ ("description" : String) = "notes" := by decide
  have h4 : ¬ ("title" : String) = "description" := by decide
  simp [h1, h2, h3, h4]

theorem parseElemsLoop_cons_comma (g : Nat) (cs : List Char) (v : Json)
    (u : List Char) (h : parseValue g cs = some (v, ',' :: u)) :
    parseElemsLoop (g + 1) cs
      = (match parseElemsLoop g (skipWs u) with
         | some (xs, r2) => some (v :: xs, r2)
         | none => none) := by
  simp only [parseElemsLoop, h]
  rw [skipWs_cons _ (by decide)]
  rfl

theorem parseElemsLoop_cons_close (g : Nat) (cs : List Char) (v : Json)
    (u : List Char) (h : parseValue g cs = some (v, ']' :: u)) :
    parseElemsLoop (g + 1) cs = some ([v], u) := by
  simp only [parseElemsLoop, h]
  rw [skipWs_cons _ (by decide)]
  rfl

theorem parseElemsLoop_fail (g : Nat) (cs : List Char)
    (h : parseValue g cs = none) : parseElemsLoop (g + 1) cs = none := by
  simp [parseElemsLoop, h]

/-- `skipWs` keeps a rendered object. -/
theorem skipWs_renderObj (o : StepObj) (r : List Char) :
    skipWs (renderObj o ++ r) = renderObj o ++ r := by
  simp only [renderObj, List.cons_append]
  exact skipWs_cons _ (by decide)

/-- The element loop parses a rendered object sequence closed by `]`. -/
theorem parseElemsLoop_render (rest : List StepObj) :
    ∀ (o : StepObj) (fuel : Nat) (tail : List Char), o.good →
      (∀ x ∈ rest, x.good) → 7 * rest.length + 8 ≤ fuel →
      parseElemsLoop fuel (renderObj o ++ (renderTail rest ++ ']' :: tail))
        = some ((o :: rest).map StepObj.toJson, tail) := by
  induction rest with
  | nil =>
    intro o fuel tail ho _ hfuel
    obtain ⟨g, rfl⟩ : ∃ g, fuel = g + 1 := ⟨fuel - 1, by omega⟩
    simp only [renderTail, List.nil_append]
    rw [parseElemsLoop_cons_close g _ o.toJson tail ?hv]
    · simp
    case hv =>
      rw [show g = (g - 6) + 6 from by omega]
      exact parseValue_renderObj o (g - 6) (']' :: tail) ho
  | cons o2 rest2 ih =>
    intro o fuel tail ho hrest hfuel
    obtain ⟨g, rfl⟩ : ∃ g, fuel = g + 1 := ⟨fuel - 1, by omega⟩
    simp only [renderTail, List.cons_append, List.append_assoc]
    rw [parseElemsLoop_cons_comma g _ o.toJson
      (renderObj o2 ++ (renderTail rest2 ++ ']' :: tail)) ?hv2]
    · rw [skipWs_renderObj]
      rw [ih o2 g tail (hrest o2 (by simp))
        (fun x hx => hrest x (by simp [hx])) (by simp at hfuel ⊢; omega)]
      simp
    case hv2 =>
      rw [show g = (g - 6) + 6 from by omega]
      have := parseValue_renderObj o (g - 6)
        (',' :: (renderObj o2 ++ (renderTail rest2 ++ ']' :: tail))) ho
      simpa using this

/-- A rendered object's length is at least 54. -/
theorem renderObj_length (o : StepObj) : 54 ≤ (renderObj o).length := by
  simp [renderObj, objInterior, objP, notesRegion, snChars, titleChars,
    descChars, notesChars]
  omega

theorem renderTail_length (rest : List StepObj) :
    7 * rest.length ≤ (renderTail rest).length := by
  induction rest with
  | nil => simp [renderTail]
  | cons o2 rest2 ih =>
    have := renderObj_length o2
    simp [renderTail]
    omega

/-- `json.loads` of a rendered non-empty array yields exactly the
expected values. -/
theorem json_loads_renderArr (o : StepObj) (rest : List StepObj)
    (ho : o.good) (hrest : ∀ x ∈ rest, x.good) :
    json_loads (String.mk (renderArr o rest))
      = some (.arr ((o :: rest).map StepObj.toJson)) := by
  have hfl : 7 * rest.length + 8
      ≤ ('[' :: (renderObj o ++ (renderTail rest ++ [']']))).length := by
    have h1 := renderObj_length o
    have h2 := renderTail_length rest
    simp only [List.length_cons, List.length_append]
    simp at h2 ⊢
    omega
  have hpv : parseValue (('[' :: (renderObj o ++ (renderTail rest ++ [']']))).length + 1)
      ('[' :: (renderObj o ++ (renderTail rest ++ [']'])))
      = some (.arr ((o :: rest).map StepObj.toJson), []) := by
    simp only [parseValue]
    rw [if_neg (by decide), if_pos trivial]
    rw [skipWs_renderObj]
    show (match parseElemsLoop
        ('[' :: (renderObj o ++ (renderTail rest ++ [']']))).length
        (renderObj o ++ (renderTail rest ++ [']'])) with
      | some (xs, r) => some (Json.arr xs, r)
      | none => none) = _
    rw [parseElemsLoop_render rest o _ [] ho hrest hfl]
  rw [json_loads]
  have htl : (String.mk (renderArr o rest)).toList = renderArr o rest := rfl
  have hlen : (String.mk (renderArr o rest)).length = (renderArr o rest).length := rfl
  rw [htl, hlen]
  simp only [renderArr, renderList, List.cons_append, List.append_assoc]
  rw [skipWs_cons _ (by decide)]
  rw [hpv]
  rfl

/-! ## Normalisation identities -/

theorem listIsPre_head {p : Char} {ps l : List Char}
    (h : listIsPre (p :: ps) l = true) : p ∈ l := by
  cases l with
  | nil => simp [listIsPre] at h
  | cons c t =>
    simp only [listIsPre, Bool.and_eq_true, decide_eq_true_eq] at h
    simp [h.1]

theorem mem_of_dropWhile {p : Char → Bool} {l : List Char} {c : Char}
    (h : c ∈ l.dropWhile p) : c ∈ l := by
  induction l with
  | nil => simpa [List.dropWhile] using h
  | cons a t ih =>
    rw [List.dropWhile_cons] at h
    by_cases hp : p a = true
    · rw [if_pos hp] at h
      exact List.mem_cons_of_mem a (ih h)
    · rw [if_neg hp] at h
      exact h

theorem matchFenceAt_none {cs : List Char} (h : ∀ c ∈ cs, ¬ c = '\x60') :
    matchFenceAt cs = none := by
  rw [matchFenceAt]
  have hA : ¬ listIsPre fenceJson cs = true := fun hpre =>
    h _ (listIsPre_head (by simpa [fenceJson] using hpre)) rfl
  have hB : ¬ listIsPre fenceBare (cs.dropWhile pySpace) = true := fun hpre =>
    h _ (mem_of_dropWhile (listIsPre_head (by simpa [fenceBare] using hpre))) rfl
  rw [if_neg hA, if_neg hB]

theorem stripFencesF_id :
    ∀ (fuel : Nat) (cs : List Char), cs.length ≤ fuel →
      (∀ c ∈ cs, ¬ c = '\x60') → stripFencesF fuel cs = cs := by
  intro fuel
  induction fuel with
  | zero =>
    intro cs hl _
    have hcs : cs = [] := List.length_eq_zero.mp (by omega)
    subst hcs
    rfl
  | succ f ih =>
    intro cs hl hb
    cases cs with
    | nil => rfl
    | cons c t =>
      rw [stripFencesF]
      rw [matchFenceAt_none hb]
      have hlt : t.length ≤ f := by
        simp at hl
        omega
      rw [ih t hlt (fun x hx => hb x (by simp [hx]))]

theorem stripFences_id {cs : List Char} (h : ∀ c ∈ cs, ¬ c = '\x60') :
    stripFences cs = cs :=
  stripFencesF_id cs.length cs le_rfl h

theorem pyStrip_id {cs : List Char}
    (h1 : ∀ c, cs.head? = some c → pySpace c = false)
    (h2 : ∀ c, cs.getLast? = some c → pySpace c = false) :
    pyStrip cs = cs := by
  rw [pyStrip]
  have hd : cs.dropWhile pySpace = cs := by
    cases cs with
    | nil => rfl
    | cons a t =>
      rw [List.dropWhile_cons, if_neg (by simp [h1 a rfl])]
  rw [hd]
  have hr : cs.reverse.dropWhile pySpace = cs.reverse := by
    cases hrev : cs.reverse with
    | nil => rfl
    | cons a t =>
      have hla : cs.getLast? = some a := by
        rw [← List.head?_reverse]
        simp [hrev]
      rw [List.dropWhile_cons, if_neg (by simp [h2 a hla])]
  rw [hr, List.reverse_reverse]

theorem fromBracket_bracket (t : List Char) : fromBracket ('[' :: t) = '[' :: t := by
  rw [fromBracket]
  rw [show ('[' :: t).dropWhile (fun c => ¬ c = '[') = '[' :: t from by
    rw [List.dropWhile_cons]
    simp]

theorem cleanText_eq (l : List Char) (hbt : ∀ c ∈ ('[' :: l), ¬ c = '\x60')
    (hlast : ∀ c, ('[' :: l).getLast? = some c → pySpace c = false) :
    cleanText (String.mk ('[' :: l)) = '[' :: l := by
  rw [cleanText]
  have htl : (String.mk ('[' :: l)).toList = '[' :: l := rfl
  rw [htl]
  rw [stripFences_id hbt]
  rw [pyStrip_id (by intro c hc; simp at hc; subst hc; decide) hlast]
  exact fromBracket_bracket l

theorem renderObj_no_backtick {o : StepObj} (hg : o.good) :
    ∀ c ∈ renderObj o, ¬ c = '\x60' := by
  intro c hc hcc
  subst hcc
  obtain ⟨⟨_, hdig, _⟩, hti, hde, hno⟩ := hg
  simp [renderObj, objInterior, objP, notesRegion, snChars, titleChars,
    descChars, notesChars] at hc
  rcases hc with h | h | h | h
  · exact absurd (hdig _ h) (by decide)
  · exact (hti _ h).2.2.2.2.1 rfl
  · exact (hde _ h).2.2.2.2.1 rfl
  · exact (hno _ h).2.2.2.2.1 rfl

theorem renderTail_no_backtick {rest : List StepObj}
    (h : ∀ x ∈ rest, x.good) : ∀ c ∈ renderTail rest, ¬ c = '\x60' := by
  induction rest with
  | nil => simp [renderTail]
  | cons o2 rest2 ih =>
    intro c hc
    simp only [renderTail, List.mem_cons, List.mem_append] at hc
    rcases hc with rfl | hc | hc
    · decide
    · exact renderObj_no_backtick (h o2 (by simp)) c hc
    · exact ih (fun x hx => h x (by simp [hx])) c hc

/-! ## Suffix facts for the parser -/

theorem skipWs_suffix (cs : List Char) : skipWs cs <:+ cs :=
  List.dropWhile_suffix _

theorem parseEsc_suffix {cs : List Char} {ch : Char} {rest : List Char}
    (h : parseEsc cs = some (ch, rest)) : rest <:+ cs := by
  match cs with
  | [] => simp [parseEsc] at h
  | e :: cs2 =>
    rw [parseEsc] at h
    repeat' split at h
    all_goals try simp_all
    all_goals
      try (obtain ⟨hc, hr⟩ := h
           subst hr)
    all_goals
      first
      | exact List.suffix_cons _ _
      | exact ((List.drop_suffix _ _).trans (List.suffix_cons _ _))
      | exact (((List.drop_suffix _ _).trans (List.drop_suffix _ _)).trans
          (List.suffix_cons _ _))

theorem parseStringBody_suffix :
    ∀ (fuel : Nat) (cs k r : List Char),
      parseStringBody fuel cs = some (k, r) → r <:+ cs := by
  intro fuel
  induction fuel with
  | zero => intro cs k r h; simp [parseStringBody] at h
  | succ f ih =>
    intro cs k r h
    match cs with
    | [] => simp [parseStringBody] at h
    | c :: t =>
      rw [parseStringBody] at h
      split at h
      · obtain ⟨hk, hr⟩ := by simpa using h
        subst hr
        exact List.suffix_cons _ _
      · split at h
        · split at h
          · simp at h
          · rename_i ch rest2 hesc
            rcases hsb : parseStringBody f rest2 with _ | ⟨k2, r2⟩
            · rw [hsb] at h
              simp at h
            · rw [hsb] at h
              obtain ⟨hk, hr⟩ := by simpa using h
              subst hr
              exact ((ih rest2 k2 r2 hsb).trans (parseEsc_suffix hesc)).trans
                (List.suffix_cons _ _)
        · split at h
          · simp at h
          · rcases hsb : parseStringBody f t with _ | ⟨k2, r2⟩
            · rw [hsb] at h
              simp at h
            · rw [hsb] at h
              obtain ⟨hk, hr⟩ := by simpa using h
              subst hr
              exact (ih t k2 r2 hsb).trans (List.suffix_cons _ _)

theorem parseNumTail_suffix {sign intDs cs2 : List Char} {v : Json}
    {r : List Char} (h : parseNumTail sign intDs cs2 = some (v, r)) :
    r <:+ cs2 := by
  rw [parseNumTail] at h
  repeat' split at h
  all_goals try simp_all
  all_goals
    try (obtain ⟨hv, hr⟩ := h
         subst hr)
  all_goals
    first
    | exact List.suffix_rfl
    | exact List.drop_suffix _ _
    | exact ((List.drop_suffix _ _).trans (List.drop_suffix _ _))

theorem parseNumCore_suffix {sign cs1 : List Char} {v : Json}
    {r : List Char} (h : parseNumCore sign cs1 = some (v, r)) : r <:+ cs1 := by
  match cs1 with
  | [] => simp [parseNumCore] at h
  | d :: t =>
    rw [parseNumCore] at h
    split at h
    · simp at h
    · split at h
      · exact (parseNumTail_suffix h).trans (List.suffix_cons _ _)
      · exact ((parseNumTail_suffix h).trans (List.dropWhile_suffix _)).trans
          (List.suffix_cons _ _)

theorem parseNumTok_suffix {cs : List Char} {v : Json} {r : List Char}
    (h : parseNumTok cs = some (v, r)) : r <:+ cs := by
  match cs with
  | [] => simp [parseNumTok] at h
  | c0 :: t0 =>
    rw [parseNumTok] at h
    split at h
    · exact (parseNumCore_suffix h).trans (List.suffix_cons _ _)
    · exact parseNumCore_suffix h

theorem parse_suffix :
    ∀ fuel : Nat,
      (∀ cs v r, parseValue fuel cs = some (v, r) → r <:+ cs) ∧
      (∀ cs xs r, parseElemsLoop fuel cs = some (xs, r) → r <:+ cs) ∧
      (∀ cs acc v r, parseMembersLoop fuel cs acc = some (v, r) → r <:+ cs) := by
  intro fuel
  induction fuel with
  | zero =>
    refine ⟨?_, ?_, ?_⟩
    · intro cs v r h
      simp [parseValue] at h
    · intro cs xs r h
      simp [parseElemsLoop] at h
    · intro cs acc v r h
      simp [parseMembersLoop] at h
  | succ f ih =>
    obtain ⟨ihV, ihE, ihM⟩ := ih
    refine ⟨?_, ?_, ?_⟩
    · intro cs v r h
      match cs with
      | [] => simp [parseValue] at h
      | c :: t =>
        simp only [parseValue] at h
        split at h
        · split at h
          · rename_i u hu
            obtain ⟨hv, hr⟩ := by simpa using h
            subst hr
            refine ((?_ : _ <:+ skipWs t).trans (skipWs_suffix t)).trans
              (List.suffix_cons _ _)
            rw [hu]
            exact List.suffix_cons _ _
          · exact ((ihM _ _ _ _ h).trans (skipWs_suffix t)).trans
              (List.suffix_cons _ _)
        · split at h
          · split at h
            · rename_i u hu
              obtain ⟨hv, hr⟩ := by simpa using h
              subst hr
              refine ((?_ : _ <:+ skipWs t).trans (skipWs_suffix t)).trans
                (List.suffix_cons _ _)
              rw [hu]
              exact List.suffix_cons _ _
            · split at h
              · rename_i xs rest2 he
                obtain ⟨hv, hr⟩ := by simpa using h
                subst hr
                exact ((ihE _ _ _ he).trans (skipWs_suffix t)).trans
                  (List.suffix_cons _ _)
              · simp at h
          · split at h
            · rw [Option.map_eq_some'] at h
              obtain ⟨⟨k, r2⟩, hsb, hpair⟩ := h
              obtain ⟨hv, hr⟩ := by simpa using hpair
              subst hr
              exact (parseStringBody_suffix _ _ _ _ hsb).trans
                (List.suffix_cons _ _)
            · split at h
              · split at h
                · obtain ⟨hv, hr⟩ := by simpa using h
                  subst hr
                  exact (List.drop_suffix _ _).trans (List.suffix_cons _ _)
                · simp at h
              · split at h
                · split at h
                  · obtain ⟨hv, hr⟩ := by simpa using h
                    subst hr
                    exact (List.drop_suffix _ _).trans (List.suffix_cons _ _)
                  · simp at h
                · split at h
                  · split at h
                    · obtain ⟨hv, hr⟩ := by simpa using h
                      subst hr
                      exact (List.drop_suffix _ _).trans (List.suffix_cons _ _)
                    · simp at h
                  · exact parseNumTok_suffix h
    · intro cs xs r h
      rw [parseElemsLoop] at h
      split at h
      · simp at h
      · rename_i v1 rest hpv
        have hVr : rest <:+ cs := ihV _ _ _ hpv
        split at h
        · rename_i u hu
          have hcons : (',' :: u) <:+ rest := by
            rw [← hu]
            exact skipWs_suffix rest
          split at h
          · rename_i xs2 rest2 he
            obtain ⟨hx, hr⟩ := by simpa using h
            subst hr
            have h1 : rest2 <:+ skipWs u := ihE _ _ _ he
            have h2 : skipWs u <:+ u := skipWs_suffix u
            have h3 : u <:+ ',' :: u := List.suffix_cons _ _
            exact (((h1.trans h2).trans h3).trans hcons).trans hVr
          · simp at h
        · rename_i u hu
          obtain ⟨hx, hr⟩ := by simpa using h
          subst hr
          have hcons2 : (']' :: u) <:+ rest := by
            rw [← hu]
            exact skipWs_suffix rest
          exact ((List.suffix_cons _ _).trans hcons2).trans hVr
        · simp at h
    · intro cs acc v r h
      rw [parseMembersLoop.eq_def] at h
      split at h
      · simp at h
      · rename_i fl heq
        obtain rfl : fl = f := by omega
        split at h
        · rename_i t
          split at h
          · simp at h
          · rename_i k rest hsb
            have hSr : rest <:+ '\"' :: t :=
              (parseStringBody_suffix _ _ _ _ hsb).trans (List.suffix_cons _ _)
            split at h
            · rename_i u hu
              have hcons : (':' :: u) <:+ rest := by
                rw [← hu]
                exact skipWs_suffix rest
              split at h
              · simp at h
              · rename_i v1 rest2 hpv
                have hVr : rest2 <:+ skipWs u := ihV _ _ _ hpv
                have hu2 : rest2 <:+ rest :=
                  ((hVr.trans (skipWs_suffix u)).trans
                    (List.suffix_cons _ _)).trans hcons
                split at h
                · rename_i w hw
                  have hcons2 : (',' :: w) <:+ rest2 := by
                    rw [← hw]
                    exact skipWs_suffix rest2
                  have h1 : r <:+ skipWs w := ihM _ _ _ _ h
                  exact ((((h1.trans (skipWs_suffix w)).trans
                    (List.suffix_cons _ _)).trans hcons2).trans hu2).trans hSr
                · rename_i w hw
                  obtain ⟨hv, hr⟩ := by simpa using h
                  subst hr
                  have hcons2 : ('\x7d' :: w) <:+ rest2 := by
                    rw [← hw]
                    exact skipWs_suffix rest2
                  exact (((List.suffix_cons _ _).trans hcons2).trans hu2).trans hSr
                · simp at h
            · simp at h
        · simp at h

/-! ## Failure of the direct parse on truncated renderings -/

theorem mem_of_suffix {a : Char} {l1 l2 : List Char} (h : l1 <:+ l2)
    (ha : a ∈ l1) : a ∈ l2 := h.mem ha

/-- A successful object-member parse must have consumed a closing brace. -/
theorem parseMembersLoop_brace :
    ∀ (fuel : Nat) (cs : List Char) (acc : List (String × Json)) (v : Json)
      (r : List Char), parseMembersLoop fuel cs acc = some (v, r) →
      '\x7d' ∈ cs := by
  intro fuel
  induction fuel with
  | zero =>
    intro cs acc v r h
    simp [parseMembersLoop] at h
  | succ f ih =>
    intro cs acc v r h
    rw [parseMembersLoop.eq_def] at h
    split at h
    · simp at h
    · rename_i fl heq
      obtain rfl : fl = f := by omega
      split at h
      · rename_i t
        split at h
        · simp at h
        · rename_i k rest hsb
          have hSr : rest <:+ '\"' :: t :=
            (parseStringBody_suffix _ _ _ _ hsb).trans (List.suffix_cons _ _)
          split at h
          · rename_i u hu
            have hcons : (':' :: u) <:+ rest := by
              rw [← hu]
              exact skipWs_suffix rest
            split at h
            · simp at h
            · rename_i v1 rest2 hpv
              have hVr : rest2 <:+ skipWs u := (parse_suffix _).1 _ _ _ hpv
              have hu2 : rest2 <:+ '\"' :: t :=
                (((hVr.trans (skipWs_suffix u)).trans
                  (List.suffix_cons _ _)).trans hcons).trans hSr
              split at h
              · rename_i w hw
                have hmem : '\x7d' ∈ skipWs w := ih _ _ _ _ h
                have hwsub : skipWs w <:+ rest2 :=
                  ((skipWs_suffix w).trans (List.suffix_cons _ _)).trans
                    (hw ▸ skipWs_suffix rest2)
                exact mem_of_suffix (hwsub.trans hu2) hmem
              · rename_i w hw
                have hmem : '\x7d' ∈ skipWs rest2 := by
                  rw [hw]
                  simp
                exact mem_of_suffix ((skipWs_suffix rest2).trans hu2) hmem
              · simp at h
          · simp at h
      · simp at h

/-- An object opening whose tail has no closing brace cannot parse. -/
theorem parseValue_frag_fail :
    ∀ (f : Nat) (t : List Char), '\x7d' ∉ t →
      parseValue f ('\x7b' :: t) = none := by
  intro f t hnb
  cases f with
  | zero => rfl
  | succ g =>
    simp only [parseValue]
    rw [if_pos trivial]
    split
    · rename_i u hu
      exact absurd (mem_of_suffix (skipWs_suffix t)
        (show '\x7d' ∈ skipWs t by rw [hu]; simp)) hnb
    · cases hres : parseMembersLoop g (skipWs t) [] with
      | none => rfl
      | some p =>
        obtain ⟨v, r⟩ := p
        exact absurd (mem_of_suffix (skipWs_suffix t)
          (parseMembersLoop_brace g _ _ _ _ hres)) hnb

theorem parseElemsLoop_frag (g : Nat) (t : List Char) (hnb : '\x7d' ∉ t) :
    parseElemsLoop g ('\x7b' :: t) = none := by
  cases g with
  | zero => rfl
  | succ g2 => exact parseElemsLoop_fail g2 _ (parseValue_frag_fail _ _ hnb)

/-- The element loop fails on a rendered object sequence followed by a
separator and an unclosed object fragment. -/
theorem parseElemsLoop_trunc (rest : List StepObj) :
    ∀ (o : StepObj) (fuel : Nat) (t : List Char), o.good →
      (∀ x ∈ rest, x.good) → '\x7d' ∉ t → 7 * rest.length + 8 ≤ fuel →
      parseElemsLoop fuel
        (renderObj o ++ (renderTail rest ++ ',' :: '\x7b' :: t)) = none := by
  induction rest with
  | nil =>
    intro o fuel t ho _ hnb hfuel
    obtain ⟨g, rfl⟩ : ∃ g, fuel = g + 1 := ⟨fuel - 1, by omega⟩
    simp only [renderTail, List.nil_append]
    rw [parseElemsLoop_cons_comma g _ o.toJson ('\x7b' :: t) ?hv]
    · rw [skipWs_cons _ (by decide)]
      rw [parseElemsLoop_frag g t hnb]
    case hv =>
      rw [show g = (g - 6) + 6 from by omega]
      exact parseValue_renderObj o (g - 6) (',' :: '\x7b' :: t) ho
  | cons o2 rest2 ih =>
    intro o fuel t ho hrest hnb hfuel
    obtain ⟨g, rfl⟩ : ∃ g, fuel = g + 1 := ⟨fuel - 1, by omega⟩
    simp only [renderTail, List.cons_append, List.append_assoc]
    rw [parseElemsLoop_cons_comma g _ o.toJson
      (renderObj o2 ++ (renderTail rest2 ++ ',' :: '\x7b' :: t)) ?hv2]
    · rw [skipWs_renderObj]
      rw [ih o2 g t (hrest o2 (by simp))
        (fun x hx => hrest x (by simp [hx])) hnb (by simp at hfuel ⊢; omega)]
    case hv2 =>
      rw [show g = (g - 6) + 6 from by omega]
      have := parseValue_renderObj o (g - 6)
        (',' :: (renderObj o2 ++ (renderTail rest2 ++ ',' :: '\x7b' :: t))) ho
      simpa using this

/-- `json.loads` fails outright on the truncated rendering. -/
theorem json_loads_trunc (o : StepObj) (rest : List StepObj) (t : List Char)
    (ho : o.good) (hrest : ∀ x ∈ rest, x.good) (hnb : '\x7d' ∉ t) :
    json_loads (String.mk (renderTrunc o rest ('\x7b' :: t))) = none := by
  have hfl : 7 * rest.length + 8
      ≤ ('[' :: (renderObj o ++ (renderTail rest ++ ',' :: '\x7b' :: t))).length := by
    have h1 := renderObj_length o
    have h2 := renderTail_length rest
    simp only [List.length_cons, List.length_append]
    simp at h2 ⊢
    omega
  have hpv : parseValue
      (('[' :: (renderObj o ++ (renderTail rest ++ ',' :: '\x7b' :: t))).length + 1)
      ('[' :: (renderObj o ++ (renderTail rest ++ ',' :: '\x7b' :: t))) = none := by
    simp only [parseValue]
    rw [if_neg (by decide), if_pos trivial]
    rw [skipWs_renderObj]
    show (match parseElemsLoop
        ('[' :: (renderObj o ++ (renderTail rest ++ ',' :: '\x7b' :: t))).length
        (renderObj o ++ (renderTail rest ++ ',' :: '\x7b' :: t)) with
      | some (xs, r) => some (Json.arr xs, r)
      | none => none) = _
    rw [parseElemsLoop_trunc rest o _ t ho hrest hnb hfl]
  rw [json_loads]
  have htl : (String.mk (renderTrunc o rest ('\x7b' :: t))).toList
      = renderTrunc o rest ('\x7b' :: t) := rfl
  have hlen : (String.mk (renderTrunc o rest ('\x7b' :: t))).length
      = (renderTrunc o rest ('\x7b' :: t)).length := rfl
  rw [htl, hlen]
  simp only [renderTrunc, renderList, List.cons_append, List.append_assoc]
  rw [skipWs_cons _ (by decide)]
  rw [hpv]


theorem listIsPre_append_self (x y : List Char) : listIsPre x (x ++ y) = true := by
  induction x with
  | nil => rfl
  | cons c t ih => simp [listIsPre, ih]

theorem listIsPre_mem {p l : List Char} (h : listIsPre p l = true) :
    ∀ c ∈ p, c ∈ l := by
  induction p generalizing l with
  | nil => simp
  | cons x p ih =>
    cases l with
    | nil => simp [listIsPre] at h
    | cons y l =>
      simp only [listIsPre, Bool.and_eq_true, decide_eq_true_eq] at h
      intro c hc
      rcases List.mem_cons.mp hc with rfl | hc
      · simp [h.1]
      · exact List.mem_cons_of_mem _ (ih h.2 c hc)

theorem tryTail_brace {cs r : List Char} (h : tryTail cs = some r) :
    '\x7d' ∈ cs := by
  rw [tryTail] at h
  split at h
  case isTrue hpre =>
    split at h
    next a hA =>
      split at h
      next b hB =>
        split at h
        next d hD =>
          split at h
          next r2 hE =>
            have m1 : '\x7d' ∈ d.dropWhile pySpace := by
              rw [hE]
              simp
            have m2 : '\x7d' ∈ b.dropWhile (fun c => ¬ c = '\"') := by
              rw [hD]
              simp [mem_of_dropWhile m1]
            have m3 : '\x7d' ∈ a.dropWhile pySpace := by
              rw [hB]
              simp [mem_of_dropWhile m2]
            have m4 : '\x7d' ∈ (cs.drop 7).dropWhile pySpace := by
              rw [hA]
              simp [mem_of_dropWhile m3]
            exact mem_of_suffix (List.drop_suffix 7 cs) (mem_of_dropWhile m4)
          next => simp at h
        next => simp at h
      next => simp at h
    next => simp at h
  case isFalse => simp at h

theorem searchA_brace {s tl r : List Char} (h : searchA s tl = some r) :
    '\x7d' ∈ s ++ tl := by
  induction s with
  | nil => simpa using tryTail_brace h
  | cons c s ih =>
    rw [searchA] at h
    split at h
    · rename_i r2 hr2
      have hx : searchA s tl = some r := by
        rw [hr2]
        exact h
      simpa using Or.inr (by simpa using ih hx)
    · have := tryTail_brace h
      simpa using this

theorem matchNotesObjAt_no_close {cs : List Char} (hnb : '\x7d' ∉ cs) :
    matchNotesObjAt cs = none := by
  match cs with
  | [] => rfl
  | c :: t =>
    rw [matchNotesObjAt]
    by_cases hc : c = '\x7b'
    · rw [if_pos hc]
      cases hres : searchA (t.takeWhile notBrace)
          (t.drop (t.takeWhile notBrace).length) with
      | none => rfl
      | some r =>
        exfalso
        have hmem := searchA_brace hres
        have hdw : t.drop (t.takeWhile notBrace).length = t.dropWhile notBrace := by
          nth_rewrite 2 [show t = t.takeWhile notBrace ++ t.dropWhile notBrace from
            (List.takeWhile_append_dropWhile notBrace t).symm]
          rw [List.drop_left]
        rw [hdw, List.takeWhile_append_dropWhile] at hmem
        exact hnb (List.mem_cons_of_mem _ hmem)
    · rw [if_neg hc]

theorem findAllNotesF_nil (fuel : Nat) : findAllNotesF fuel [] = [] := by
  cases fuel <;> rfl

theorem findAllNotesF_no_close :
    ∀ (fuel : Nat) (cs : List Char), '\x7d' ∉ cs → findAllNotesF fuel cs = [] := by
  intro fuel
  induction fuel with
  | zero =>
    intro cs h
    rfl
  | succ f ih =>
    intro cs h
    cases cs with
    | nil => rfl
    | cons c t =>
      rw [findAllNotesF]
      rw [matchNotesObjAt_no_close h]
      exact ih t (fun hm => h (List.mem_cons_of_mem _ hm))

theorem forall_mem_append {p : Char → Prop} {a b : List Char}
    (ha : ∀ c ∈ a, p c) (hb : ∀ c ∈ b, p c) : ∀ c ∈ a ++ b, p c := by
  intro c hc
  rcases List.mem_append.mp hc with h | h
  · exact ha c h
  · exact hb c h

theorem forall_mem_cons {p : Char → Prop} {x : Char} {b : List Char}
    (hx : p x) (hb : ∀ c ∈ b, p c) : ∀ c ∈ x :: b, p c := by
  intro c hc
  rcases List.mem_cons.mp hc with rfl | h
  · exact hx
  · exact hb c h

theorem notBrace_of_digit {c : Char} (hd : isDigitC c = true) :
    notBrace c = true := by
  have h1 : ¬ c = '\x7b' := fun e => absurd hd (by rw [e]; decide)
  have h2 : ¬ c = '\x7d' := fun e => absurd hd (by rw [e]; decide)
  simp [notBrace, h1, h2]

theorem notBrace_of_good {c : Char} (hg : goodChar c) : notBrace c = true := by
  obtain ⟨_, _, h3, h4, _, _⟩ := hg
  simp [notBrace, h3, h4]

theorem objInterior_notBrace {o : StepObj} (hg : o.good) :
    ∀ c ∈ objInterior o, notBrace c = true := by
  obtain ⟨⟨_, hdig, _⟩, hti, hde, hno⟩ := hg
  have hnum : ∀ c ∈ o.num, notBrace c = true :=
    fun c hc => notBrace_of_digit (hdig c hc)
  have h1 : ∀ c ∈ o.title, notBrace c = true :=
    fun c hc => notBrace_of_good (hti c hc)
  have h2 : ∀ c ∈ o.description, notBrace c = true :=
    fun c hc => notBrace_of_good (hde c hc)
  have h3 : ∀ c ∈ o.notes, notBrace c = true :=
    fun c hc => notBrace_of_good (hno c hc)
  simp only [objInterior, objP, notesRegion]
  refine forall_mem_append ?_ ?_
  · refine forall_mem_cons (by decide) ?_
    refine forall_mem_append (by decide) ?_
    refine forall_mem_cons (by decide) ?_
    refine forall_mem_cons (by decide) ?_
    refine forall_mem_append hnum ?_
    refine forall_mem_cons (by decide) ?_
    refine forall_mem_cons (by decide) ?_
    refine forall_mem_append (by decide) ?_
    refine forall_mem_cons (by decide) ?_
    refine forall_mem_cons (by decide) ?_
    refine forall_mem_cons (by decide) ?_
    refine forall_mem_append h1 ?_
    refine forall_mem_cons (by decide) ?_
    refine forall_mem_cons (by decide) ?_
    refine forall_mem_cons (by decide) ?_
    refine forall_mem_append (by decide) ?_
    refine forall_mem_cons (by decide) ?_
    refine forall_mem_cons (by decide) ?_
    refine forall_mem_cons (by decide) ?_
    exact forall_mem_append h2 (by decide)
  · refine forall_mem_cons (by decide) ?_
    refine forall_mem_append (by decide) ?_
    refine forall_mem_cons (by decide) ?_
    refine forall_mem_cons (by decide) ?_
    refine forall_mem_cons (by decide) ?_
    exact forall_mem_append h3 (by decide)

theorem tryTail_notesRegion (o : StepObj) (tail : List Char)
    (hno : goodField o.notes) :
    tryTail (notesRegion o ++ '\x7d' :: tail) = some tail := by
  have hshape : notesRegion o ++ '\x7d' :: tail
      = '\"' :: 'n' :: 'o' :: 't' :: 'e' :: 's' :: '\"' :: ':' :: '\"' ::
        (o.notes ++ '\"' :: '\x7d' :: tail) := by
    simp [notesRegion, notesChars]
  rw [hshape]
  show (match (o.notes ++ '\"' :: '\x7d' :: tail).dropWhile (fun c => ¬ c = '\"') with
    | '\"' :: e =>
      match e.dropWhile pySpace with
      | '\x7d' :: r => some r
      | _ => none
    | _ => none) = some tail
  rw [(@takeWhile_append_not (fun c => ¬ c = '\"') o.notes '\"' ('\x7d' :: tail)
    (fun c hc => decide_eq_true (hno c hc).1) (by decide)).2]
  rfl

theorem tryTail_head_ne {c : Char} (t' : List Char) (hc : ¬ c = '\"') :
    tryTail (c :: t') = none := by
  have h : ¬ '\"' = c := fun e => hc e.symm
  simp [tryTail, notesKey, listIsPre, h]

theorem tryTail_snd_ne {c : Char} (t' : List Char) (hc : ¬ c = 'n') :
    tryTail ('\"' :: c :: t') = none := by
  have h : ¬ 'n' = c := fun e => hc e.symm
  simp [tryTail, notesKey, listIsPre, h]

theorem suffix_split {l2 : List Char} :
    ∀ (l1 l : List Char), l <:+ l1 ++ l2 → l2.length ≤ l.length →
      ∃ l', l = l' ++ l2 ∧ l' <:+ l1 := by
  intro l1
  induction l1 with
  | nil =>
    intro l h hlen
    simp only [List.nil_append] at h
    have he : l = l2 := h.eq_of_length (le_antisymm h.length_le hlen)
    exact ⟨[], by simp [he], List.suffix_rfl⟩
  | cons c l1 ih =>
    intro l h hlen
    rw [List.cons_append, List.suffix_cons_iff] at h
    rcases h with rfl | h
    · exact ⟨c :: l1, by simp, List.suffix_rfl⟩
    · obtain ⟨l', rfl, hsuf⟩ := ih l h hlen
      exact ⟨l', rfl, hsuf.trans (List.suffix_cons _ _)⟩

theorem suffix_append_cases {l1 l2 l : List Char} (h : l <:+ l1 ++ l2) :
    l <:+ l2 ∨ ∃ l', l = l' ++ l2 ∧ l' <:+ l1 := by
  by_cases hlen : l2.length ≤ l.length
  · obtain ⟨l', rfl, hs⟩ := suffix_split _ _ h hlen
    exact Or.inr ⟨l', rfl, hs⟩
  · left
    have hd := List.suffix_iff_eq_drop.mp h
    have harith : (l1 ++ l2).length - l.length
        = l1.length + (l2.length - l.length) := by
      simp only [List.length_append]
      omega
    rw [hd, harith, List.drop_append]
    exact List.drop_suffix _ _

theorem searchA_none_of_fail :
    ∀ (s tl : List Char),
      (∀ s', s' <:+ (s ++ tl) → tl.length ≤ s'.length → tryTail s' = none) →
      searchA s tl = none := by
  intro s
  induction s with
  | nil =>
    intro tl h
    exact h tl List.suffix_rfl le_rfl
  | cons c s ih =>
    intro tl h
    rw [searchA]
    rw [ih tl ?hsub]
    · exact h (c :: (s ++ tl)) (by simpa using List.suffix_rfl)
        (by simp only [List.length_cons, List.length_append]; omega)
    case hsub =>
      intro s' hs' hl
      exact h s' (hs'.trans (by simpa using List.suffix_cons c (s ++ tl))) hl

theorem listIsPre_quote_end {a b : List Char} {r : List Char}
    (ha : ∀ c ∈ a, ¬ c = '\"') (hb : ∀ c ∈ b, ¬ c = '\"')
    (h : listIsPre (a ++ ['\"']) (b ++ '\"' :: r) = true) : a = b := by
  induction a generalizing b with
  | nil =>
    cases b with
    | nil => rfl
    | cons y b2 =>
      exfalso
      simp only [List.nil_append, List.cons_append, listIsPre, Bool.and_eq_true,
        decide_eq_true_eq] at h
      exact hb y (by simp) h.1.symm
  | cons x a2 ih =>
    cases b with
    | nil =>
      exfalso
      simp only [List.cons_append, List.nil_append, listIsPre, Bool.and_eq_true,
        decide_eq_true_eq] at h
      exact ha x (by simp) h.1
    | cons y b2 =>
      simp only [List.cons_append, listIsPre, Bool.and_eq_true,
        decide_eq_true_eq] at h
      rw [h.1, ih (fun c hc => ha c (by simp [hc]))
        (fun c hc => hb c (by simp [hc])) h.2]

theorem tryTail_inner_none (o : StepObj) (tail s' : List Char)
    (hno : goodField o.notes)
    (hs : s' <:+ ((notesChars ++ '\"' :: ':' :: '\"' :: (o.notes ++ ['\"']))
      ++ '\x7d' :: tail))
    (hl : ('\x7d' :: tail).length ≤ s'.length) :
    tryTail s' = none := by
  obtain ⟨s1, rfl, hs1⟩ := suffix_split _ _ hs hl
  have hq : ∀ c ∈ o.notes, ¬ c = '\"' := fun c hc => (hno c hc).1
  rcases suffix_append_cases hs1 with hM | ⟨s2, rfl, hs2⟩
  · rw [List.suffix_cons_iff] at hM
    rcases hM with rfl | hM
    · exact tryTail_snd_ne _ (by decide)
    · rw [List.suffix_cons_iff] at hM
      rcases hM with rfl | hM
      · exact tryTail_head_ne _ (by decide)
      · rw [List.suffix_cons_iff] at hM
        rcases hM with rfl | hM
        · by_cases hp : listIsPre notesKey
              (('\"' :: (o.notes ++ ['\"'])) ++ '\x7d' :: tail) = true
          · have hstrip : listIsPre (notesChars ++ ['\"'])
                (o.notes ++ '\"' :: ('\x7d' :: tail)) = true := by
              simpa [notesKey, notesChars, listIsPre] using hp
            have he : notesChars = o.notes :=
              listIsPre_quote_end (by decide) hq hstrip
            rw [← he]
            rfl
          · rw [tryTail, if_neg hp]
        · rcases suffix_append_cases hM with hQ | ⟨s3, rfl, hs3⟩
          · rw [List.suffix_cons_iff] at hQ
            rcases hQ with rfl | hQ
            · exact tryTail_snd_ne _ (by decide)
            · rw [List.suffix_nil.mp hQ]
              exact tryTail_head_ne _ (by decide)
          · cases s3 with
            | nil => exact tryTail_snd_ne _ (by decide)
            | cons c s4 =>
              have hcm : c ∈ o.notes := mem_of_suffix hs3 (by simp)
              exact tryTail_head_ne _ (hq c hcm)
  · cases s2 with
    | nil => exact tryTail_snd_ne _ (by decide)
    | cons c s4 =>
      have hcm : c ∈ notesChars := mem_of_suffix hs2 (by simp)
      have hcq : ¬ c = '\"' := by
        intro e
        subst e
        revert hcm
        decide
      exact tryTail_head_ne _ hcq

theorem searchA_append_some {b tl r : List Char} (a : List Char)
    (h : searchA b tl = some r) : searchA (a ++ b) tl = some r := by
  induction a with
  | nil => simpa using h
  | cons c a ih =>
    rw [List.cons_append, searchA, ih]

theorem searchA_notesRegion (o : StepObj) (tail : List Char)
    (hno : goodField o.notes) :
    searchA (objInterior o) ('\x7d' :: tail) = some tail := by
  show searchA (objP o ++ ('\"' ::
    (notesChars ++ '\"' :: ':' :: '\"' :: (o.notes ++ ['\"'])))) ('\x7d' :: tail)
    = some tail
  apply searchA_append_some
  rw [searchA]
  rw [searchA_none_of_fail _ _ (fun s hs hl => tryTail_inner_none o tail s hno hs hl)]
  exact tryTail_notesRegion o tail hno

theorem matchNotesObjAt_renderObj (o : StepObj) (tail : List Char)
    (hg : o.good) :
    matchNotesObjAt (renderObj o ++ tail) = some (renderObj o, tail) := by
  have hshape : renderObj o ++ tail = '\x7b' :: (objInterior o ++ '\x7d' :: tail) := by
    simp [renderObj]
  rw [hshape, matchNotesObjAt]
  rw [if_pos rfl]
  have htk := @takeWhile_append_not notBrace (objInterior o) '\x7d' tail
    (objInterior_notBrace hg) (by decide)
  rw [htk.1, List.drop_left]
  rw [searchA_notesRegion o tail hg.2.2.2]
  show some (('\x7b' :: (objInterior o ++ '\x7d' :: tail)).take
      (('\x7b' :: (objInterior o ++ '\x7d' :: tail)).length - tail.length), tail)
    = some (renderObj o, tail)
  rw [← hshape]
  have hl : (renderObj o ++ tail).length - tail.length = (renderObj o).length := by
    simp
  rw [hl, List.take_left]

theorem matchNotesObjAt_not_open {c : Char} (t : List Char)
    (hc : ¬ c = '\x7b') : matchNotesObjAt (c :: t) = none := by
  rw [matchNotesObjAt]
  rw [if_neg hc]

theorem findAllNotesF_trunc :
    ∀ (rest : List StepObj) (o : StepObj) (fuel : Nat) (t : List Char),
      o.good → (∀ x ∈ rest, x.good) → '\x7b' ∉ t → '\x7d' ∉ t →
      (renderObj o ++ (renderTail rest ++ ',' :: '\x7b' :: t)).length ≤ fuel →
      findAllNotesF fuel (renderObj o ++ (renderTail rest ++ ',' :: '\x7b' :: t))
        = (o :: rest).map renderObj := by
  intro rest
  induction rest with
  | nil =>
    intro o fuel t ho _ hob hcb hfuel
    simp only [renderTail, List.nil_append] at hfuel ⊢
    obtain ⟨g, rfl⟩ : ∃ g, fuel = g + 1 :=
      ⟨fuel - 1, by simp [renderObj] at hfuel; omega⟩
    have hshape : renderObj o ++ ',' :: '\x7b' :: t
        = '\x7b' :: (objInterior o ++ '\x7d' :: (',' :: '\x7b' :: t)) := by
      simp [renderObj]
    have hm : matchNotesObjAt ('\x7b' :: (objInterior o ++ '\x7d' :: (',' :: '\x7b' :: t)))
        = some (renderObj o, ',' :: '\x7b' :: t) := by
      rw [← hshape]
      exact matchNotesObjAt_renderObj o _ ho
    rw [hshape, findAllNotesF, hm]
    show renderObj o :: findAllNotesF g (',' :: '\x7b' :: t) = _
    rw [findAllNotesF_no_close g _ ?hnb]
    · simp
    case hnb =>
      intro hmem
      simp only [List.mem_cons] at hmem
      rcases hmem with h | h | h
      · exact absurd h (by decide)
      · exact absurd h (by decide)
      · exact hcb h
  | cons o2 rest2 ih =>
    intro o fuel t ho hrest hob hcb hfuel
    simp only [renderTail, List.cons_append, List.append_assoc] at hfuel ⊢
    obtain ⟨g, rfl⟩ : ∃ g, fuel = g + 1 :=
      ⟨fuel - 1, by simp [renderObj] at hfuel; omega⟩
    have hshape : renderObj o ++ (',' :: (renderObj o2 ++ (renderTail rest2 ++ ',' :: '\x7b' :: t)))
        = '\x7b' :: (objInterior o ++ '\x7d' :: (',' :: (renderObj o2 ++ (renderTail rest2 ++ ',' :: '\x7b' :: t)))) := by
      simp [renderObj]
    have hm : matchNotesObjAt ('\x7b' :: (objInterior o ++ '\x7d' ::
          (',' :: (renderObj o2 ++ (renderTail rest2 ++ ',' :: '\x7b' :: t)))))
        = some (renderObj o, ',' :: (renderObj o2 ++ (renderTail rest2 ++ ',' :: '\x7b' :: t))) := by
      rw [← hshape]
      exact matchNotesObjAt_renderObj o _ ho
    rw [hshape, findAllNotesF, hm]
    show renderObj o :: findAllNotesF g
        (',' :: (renderObj o2 ++ (renderTail rest2 ++ ',' :: '\x7b' :: t))) = _
    obtain ⟨g2, rfl⟩ : ∃ g2, g = g2 + 1 :=
      ⟨g - 1, by simp [renderObj] at hfuel; omega⟩
    rw [findAllNotesF, matchNotesObjAt_not_open _ (by decide)]
    show renderObj o :: findAllNotesF g2
        (renderObj o2 ++ (renderTail rest2 ++ ',' :: '\x7b' :: t)) = _
    rw [ih o2 g2 t (hrest o2 (by simp)) (fun x hx => hrest x (by simp [hx]))
      hob hcb ?hfl]
    · simp
    case hfl =>
      have h54 : 1 ≤ (renderObj o).length := by
        simp [renderObj]
      simp only [List.length_cons, List.length_append] at hfuel ⊢
      omega

theorem findAllNotes_trunc (o : StepObj) (rest : List StepObj) (t : List Char)
    (ho : o.good) (hrest : ∀ x ∈ rest, x.good)
    (hob : '\x7b' ∉ t) (hcb : '\x7d' ∉ t) :
    findAllNotes (renderTrunc o rest ('\x7b' :: t)) = (o :: rest).map renderObj := by
  rw [findAllNotes]
  have hshape : renderTrunc o rest ('\x7b' :: t)
      = '[' :: (renderObj o ++ (renderTail rest ++ ',' :: '\x7b' :: t)) := by
    simp [renderTrunc, renderList]
  rw [hshape]
  simp only [List.length_cons]
  rw [findAllNotesF, matchNotesObjAt_not_open _ (by decide)]
  exact findAllNotesF_trunc rest o _ t ho hrest hob hcb le_rfl

theorem rfindList_append_some {y pat : List Char} {i : Nat} (x : List Char)
    (h : rfindList y pat = some i) :
    rfindList (x ++ y) pat = some (x.length + i) := by
  induction x with
  | nil => simpa using h
  | cons c x ih =>
    rw [List.cons_append, rfindList, ih]
    show some (x.length + i + 1) = some ((c :: x).length + i)
    rw [List.length_cons, Nat.add_right_comm]

theorem rfindList_none_of_fail {pat : List Char} :
    ∀ t : List Char, (∀ s', s' <:+ t → listIsPre pat s' = false) →
      rfindList t pat = none := by
  intro t
  induction t with
  | nil =>
    intro h
    simp [rfindList, h [] List.suffix_rfl]
  | cons c t ih =>
    intro h
    rw [rfindList, ih (fun s' hs => h s' (hs.trans (List.suffix_cons _ _)))]
    simp [h (c :: t) List.suffix_rfl]

theorem listIsPre_head_ne {p c : Char} (ps l : List Char) (h : ¬ p = c) :
    listIsPre (p :: ps) (c :: l) = false := by
  simp [listIsPre, h]

theorem rfind_interior_none (L : StepObj) (t : List Char) (hg : L.good)
    (hob : '\x7b' ∉ t) (hcb : '\x7d' ∉ t) :
    rfindList (objInterior L ++ '\x7d' :: ',' :: '\x7b' :: t)
      (renderObj L) = none := by
  apply rfindList_none_of_fail
  intro s hs
  rcases suffix_append_cases hs with hA | ⟨s1, rfl, hs1⟩
  · rw [List.suffix_cons_iff] at hA
    rcases hA with rfl | hA
    · exact listIsPre_head_ne _ _ (by decide)
    · rw [List.suffix_cons_iff] at hA
      rcases hA with rfl | hA
      · exact listIsPre_head_ne _ _ (by decide)
      · rw [List.suffix_cons_iff] at hA
        rcases hA with rfl | hA
        · cases hlp : listIsPre (renderObj L) ('\x7b' :: t)
          · rfl
          · exfalso
            have hstrip : listIsPre (objInterior L ++ ['\x7d']) t = true := by
              simpa [renderObj, listIsPre] using hlp
            exact hcb (listIsPre_mem hstrip '\x7d' (by simp))
        · cases s with
          | nil => rfl
          | cons c s2 =>
            have hcm : c ∈ t := mem_of_suffix hA (by simp)
            have hne : ¬ '\x7b' = c := fun e => hob (e ▸ hcm)
            show listIsPre ('\x7b' :: (objInterior L ++ ['\x7d'])) (c :: s2) = false
            exact listIsPre_head_ne _ _ hne
  · cases s1 with
    | nil => exact listIsPre_head_ne _ _ (by decide)
    | cons c s2 =>
      have hcm : c ∈ objInterior L := mem_of_suffix hs1 (by simp)
      have hnb := objInterior_notBrace hg c hcm
      have hne : ¬ '\x7b' = c := by
        intro e
        rw [← e] at hnb
        revert hnb
        decide
      show listIsPre ('\x7b' :: (objInterior L ++ ['\x7d']))
        ((c :: s2) ++ ('\x7d' :: ',' :: '\x7b' :: t)) = false
      exact listIsPre_head_ne _ _ hne

theorem rfindList_self (L : StepObj) (t : List Char) (hg : L.good)
    (hob : '\x7b' ∉ t) (hcb : '\x7d' ∉ t) :
    rfindList (renderObj L ++ ',' :: '\x7b' :: t) (renderObj L) = some 0 := by
  have hshape : renderObj L ++ ',' :: '\x7b' :: t
      = '\x7b' :: (objInterior L ++ '\x7d' :: ',' :: '\x7b' :: t) := by
    simp [renderObj]
  rw [hshape, rfindList, rfind_interior_none L t hg hob hcb]
  show (if listIsPre (renderObj L)
      ('\x7b' :: (objInterior L ++ '\x7d' :: ',' :: '\x7b' :: t)) = true
    then some 0 else none) = some 0
  have hcond : listIsPre (renderObj L)
      ('\x7b' :: (objInterior L ++ '\x7d' :: ',' :: '\x7b' :: t)) = true := by
    rw [← hshape]
    exact listIsPre_append_self _ _
  rw [if_pos hcond]

theorem renderTail_concat (xs : List StepObj) (x : StepObj) :
    renderTail (xs ++ [x]) = renderTail xs ++ ',' :: renderObj x := by
  induction xs with
  | nil => simp [renderTail]
  | cons o2 xs ih => simp [renderTail, ih]


/-! ## The primary repair on truncated renderings -/

/-- Evaluation of the primary repair from its three ingredient facts. -/
theorem primaryRepair_eval (cleaned : List Char) (objs : List (List Char))
    (lastObj : List Char) (i : Nat) (v : Json)
    (hfa : findAllNotes cleaned = objs)
    (hlast : objs.getLast? = some lastObj)
    (hrf : rfindList cleaned lastObj = some i)
    (hjl : json_loads (String.mk (cleaned.take (i + lastObj.length) ++ [']']))
      = some v) :
    primaryRepair cleaned = some v := by
  rw [primaryRepair, hfa, hlast]
  dsimp only
  rw [hrf]
  dsimp only
  have harith : ((i : Int) + (lastObj.length : Int)).toNat
      = i + lastObj.length := by
    omega
  rw [harith]
  exact hjl

/-- The primary repair recovers exactly the complete objects of a
truncated rendering. -/
theorem primaryRepair_trunc (o : StepObj) (rest : List StepObj) (t : List Char)
    (ho : o.good) (hrest : ∀ x ∈ rest, x.good)
    (hob : '\x7b' ∉ t) (hcb : '\x7d' ∉ t) :
    primaryRepair (renderTrunc o rest ('\x7b' :: t))
      = some (.arr ((o :: rest).map StepObj.toJson)) := by
  rcases List.eq_nil_or_concat rest with rfl | ⟨init, L, hc⟩
  · refine primaryRepair_eval _ [renderObj o] (renderObj o) 1 _
      (findAllNotes_trunc o [] t ho (by simp) hob hcb) (by simp) ?hrf ?hjl
    case hrf =>
      have h0 := rfindList_self o t ho hob hcb
      have h1 := rfindList_append_some ['['] h0
      simpa [renderTrunc, renderList, renderTail] using h1
    case hjl =>
      have htake : (renderTrunc o [] ('\x7b' :: t)).take (1 + (renderObj o).length)
          = '[' :: renderObj o := by
        rw [show renderTrunc o [] ('\x7b' :: t)
            = ('[' :: renderObj o) ++ ',' :: '\x7b' :: t from by
          simp [renderTrunc, renderList, renderTail]]
        rw [show 1 + (renderObj o).length = ('[' :: renderObj o).length from by
          simp [List.length_cons, Nat.add_comm]]
        exact List.take_left _ _
      rw [htake]
      have hjr := json_loads_renderArr o [] ho (by simp)
      rw [show ('[' :: renderObj o) ++ [']'] = renderArr o [] from by
        simp [renderArr, renderList, renderTail]]
      exact hjr
  · rw [List.concat_eq_append] at hc
    subst hc
    have hgL : L.good := hrest L (by simp)
    have hcl : renderTrunc o (init ++ [L]) ('\x7b' :: t)
        = ('[' :: (renderObj o ++ renderTail init) ++ [','])
          ++ (renderObj L ++ ',' :: '\x7b' :: t) := by
      simp [renderTrunc, renderList, renderTail_concat]
    refine primaryRepair_eval _ ((o :: (init ++ [L])).map renderObj)
      (renderObj L)
      (('[' :: (renderObj o ++ renderTail init) ++ [',']).length + 0) _
      (findAllNotes_trunc o (init ++ [L]) t ho hrest hob hcb) ?hlast ?hrf ?hjl
    case hlast =>
      rw [show (o :: (init ++ [L])).map renderObj
          = ((o :: init).map renderObj) ++ [renderObj L] from by simp]
      exact List.getLast?_concat _
    case hrf =>
      rw [hcl]
      exact rfindList_append_some _ (rfindList_self L t hgL hob hcb)
    case hjl =>
      have htake : (renderTrunc o (init ++ [L]) ('\x7b' :: t)).take
          ((('[' :: (renderObj o ++ renderTail init) ++ [',']).length + 0)
            + (renderObj L).length)
          = ('[' :: (renderObj o ++ renderTail init) ++ [',']) ++ renderObj L := by
        rw [hcl]
        rw [show ('[' :: (renderObj o ++ renderTail init) ++ [','])
              ++ (renderObj L ++ ',' :: '\x7b' :: t)
            = (('[' :: (renderObj o ++ renderTail init) ++ [','])
              ++ renderObj L) ++ (',' :: '\x7b' :: t) from by simp]
        rw [show (('[' :: (renderObj o ++ renderTail init) ++ [',']).length + 0)
              + (renderObj L).length
            = ((('[' :: (renderObj o ++ renderTail init) ++ [','])
              ++ renderObj L)).length from by simp; omega]
        exact List.take_left _ _
      rw [htake]
      have hjr := json_loads_renderArr o (init ++ [L]) ho hrest
      rw [show (('[' :: (renderObj o ++ renderTail init) ++ [','])
            ++ renderObj L) ++ [']'] = renderArr o (init ++ [L]) from by
        simp [renderArr, renderList, renderTail_concat]]
      exact hjr

end Rag

namespace Rag

/-! ## The claims -/

/-- C3.  Fallback invariant: whenever the step-count extraction returns
none or a value less than 1, the effective total step count used by the
orchestrator for windowing is exactly 13. -/
theorem C3_fallback_default (r : Option Nat)
    (h : r = none ∨ ∃ v, r = some v ∧ v < 1) : effectiveTotal r = 13 := by
  rcases h with rfl | ⟨v, rfl, hv⟩
  · rfl
  · simp [effectiveTotal, hv]

theorem C3_fallback_default_witness : effectiveTotal (some 0) = 13 :=
  C3_fallback_default (some 0) (Or.inr ⟨0, rfl, by decide⟩)

/-- C1.  Window partition correctness: for every `total ≥ 1` the windows
are contiguous (each start is the previous end plus one), each window is
non-empty and stays inside the total, and their element-wise cover, in
window order, is exactly the interval `[1, total]` (which makes them
ascending, non-overlapping, and jointly exhaustive); for `total = 13` the
windows are (1,4), (5,8), (9,12), (13,13). -/
theorem C1_window_partition (total : Nat) (h : 1 ≤ total) :
    List.Chain' (fun a b : Nat × Nat => b.1 = a.2 + 1) (windows total) ∧
    (∀ w ∈ windows total, w.1 ≤ w.2 ∧ w.2 ≤ total) ∧
    windowCover (windows total) = List.range' 1 total ∧
    windows 13 = [(1, 4), (5, 8), (9, 12), (13, 13)] := by
  refine ⟨?_, ?_, ?_, by decide⟩
  · rw [windows_windowsFrom]
    exact windowsFrom_chain total (total + 1 - 1) 1 le_rfl
  · rw [windows_windowsFrom]
    exact windowsFrom_mem_le total (total + 1 - 1) 1 le_rfl
  · rw [windows_windowsFrom]
    have := windowsFrom_cover total (total + 1 - 1) 1 le_rfl
    simpa using this

theorem C1_window_partition_witness :
    List.Chain' (fun a b : Nat × Nat => b.1 = a.2 + 1) (windows 13) ∧
    (∀ w ∈ windows 13, w.1 ≤ w.2 ∧ w.2 ≤ 13) ∧
    windowCover (windows 13) = List.range' 1 13 ∧
    windows 13 = [(1, 4), (5, 8), (9, 12), (13, 13)] :=
  C1_window_partition 13 (by decide)

/-- C5 (counterexample).  The claim says `_get_total_steps` returns a
positive integer or none; but on the response `"0"` it extracts the digit
run `0` and returns 0, which is neither none nor positive. -/
theorem C5_counterexample :
    get_total_steps (some "0") = some 0 ∧
    ¬ (get_total_steps (some "0") = none ∨
        ∃ n, get_total_steps (some "0") = some n ∧ 1 ≤ n) := by
  have h0 : get_total_steps (some "0") = some 0 := by decide
  refine ⟨h0, ?_⟩
  rintro (h | ⟨n, hn, h1⟩)
  · rw [h0] at h
    exact Option.noConfusion h
  · rw [h0] at hn
    have : (0 : Nat) = n := Option.some.inj hn
    omega

/-- C5 (amended).  `_get_total_steps` returns a *non-negative* integer or
none; it returns none when the client failed, when the response is empty,
or when the response contains no digit, and on a response containing a
digit it returns the value of the leftmost maximal digit run. -/
theorem C5_step_count_contract :
    get_total_steps none = none ∧
    (∀ s : String, (∀ c ∈ s.toList, ¬ isDigitC c) →
      get_total_steps (some s) = none) ∧
    (∀ s : String, s.toList ≠ [] → firstDigitRun s.toList ≠ [] →
      get_total_steps (some s) = some (digitsVal (firstDigitRun s.toList))) := by
  refine ⟨rfl, ?_, ?_⟩
  · intro s hnd
    rw [get_total_steps]
    by_cases hl : s.toList.length ≠ 0
    · have hdw : s.toList.dropWhile (fun c => ¬ isDigitC c) = [] := by
        rw [List.dropWhile_eq_nil_iff]
        intro x hx
        simpa using hnd x hx
      have hrun : firstDigitRun s.toList = [] := by
        rw [firstDigitRun, hdw]
        rfl
      rw [if_pos hl, hrun]
    · rw [if_neg hl]
  · intro s hne hrun
    rw [get_total_steps]
    have hl : s.toList.length ≠ 0 := by
      intro h0
      exact hne (List.length_eq_zero.mp h0)
    rw [if_pos hl]
    rcases hr : firstDigitRun s.toList with _ | ⟨c, t⟩
    · exact absurd hr hrun
    · rfl

theorem C5_step_count_contract_witness :
    get_total_steps (some "abc") = none ∧
    get_total_steps (some "x13y7") = some (digitsVal (firstDigitRun "x13y7".toList)) :=
  ⟨C5_step_count_contract.2.1 "abc" (by decide),
   C5_step_count_contract.2.2 "x13y7" (by decide) (by decide)⟩

/-- C8.  None-in / none-out: a none input returns none immediately; when
the direct parse, the primary repair and every suffix fallback all fail,
the extractor returns none and the batch step generator propagates that
none (no exception value exists anywhere: all results are `Option`). -/
theorem C8_none_propagation (t : String)
    (h1 : json_loads (String.mk (cleanText t)) = none)
    (h2 : primaryRepair (cleanText t) = none)
    (h3 : trySuffixes suffixList (cleanText t) = none) :
    parse_json_safely none = none ∧
    parse_json_safely (some t) = none ∧
    generate_steps_batch none = none ∧
    generate_steps_batch (some t) = none := by
  have hmain : parse_json_safely (some t) = none := by
    rw [parse_json_safely]
    rw [h1, h2, h3]
  exact ⟨rfl, hmain, rfl, hmain⟩

theorem C8_none_propagation_witness :
    parse_json_safely none = none ∧
    parse_json_safely (some "hello world") = none ∧
    generate_steps_batch none = none ∧
    generate_steps_batch (some "hello world") = none :=
  C8_none_propagation "hello world" (by decide) (by decide) (by decide)

/-- C9.  Extractor totality: for every input the extractor yields a value
of type `Option Json` — none or some parsed value — and any parsed value
comes from one of the three guarded strategies (direct parse, primary
repair, suffix fallback); in the embedding every Python exception is a
failure value, so no exception escapes. -/
theorem C9_extractor_totality (t : Option String) :
    (t = none → parse_json_safely t = none) ∧
    (parse_json_safely t = none ∨ ∃ v, parse_json_safely t = some v) ∧
    (∀ v, parse_json_safely t = some v →
      ∃ s, t = some s ∧
        (json_loads (String.mk (cleanText s)) = some v ∨
         primaryRepair (cleanText s) = some v ∨
         trySuffixes suffixList (cleanText s) = some v)) := by
  refine ⟨?_, ?_, ?_⟩
  · rintro rfl
    rfl
  · cases h : parse_json_safely t with
    | none => exact Or.inl rfl
    | some v => exact Or.inr ⟨v, rfl⟩
  · intro v hv
    cases t with
    | none => exact absurd hv (by simp [parse_json_safely])
    | some s =>
      refine ⟨s, rfl, ?_⟩
      rw [parse_json_safely] at hv
      rcases hd : json_loads (String.mk (cleanText s)) with _ | w
      · rw [hd] at hv
        rcases hp : primaryRepair (cleanText s) with _ | w
        · rw [hp] at hv
          exact Or.inr (Or.inr hv)
        · rw [hp] at hv
          exact Or.inr (Or.inl hv)
      · rw [hd] at hv
        exact Or.inl hv

theorem C9_extractor_totality_witness :
    parse_json_safely none = none :=
  (C9_extractor_totality none).1 rfl

theorem c4Resp_noneOrArr : ∀ s e, isNoneOrArr (generate_steps_batch (c4Resp s e)) := by
  intro s e
  by_cases h1 : s = 1 ∧ e = 4
  · obtain ⟨rfl, rfl⟩ := h1
    exact Or.inr ⟨[mkStep 1, mkStep 2, mkStep 3, mkStep 4], by decide⟩
  · by_cases h2 : s = 5 ∧ e = 8
    · obtain ⟨rfl, rfl⟩ := h2
      exact Or.inr ⟨[mkStep 5, mkStep 6], by decide⟩
    · left
      simp only [c4Resp, if_neg h1, if_neg h2]
      rfl

/-- C4.  Orchestrator aggregation: under a client whose every batch
outcome is a failure or a parsed array, the orchestrator returns (without
error) exactly the concatenation, in window order, of the steps of the
successful batches — it visits every window once, extends on success,
skips on failure, never stops early and never retries; in the concrete
scenario (total 9; a full 4-step batch, a truncated batch salvaged to 2
steps, and a failed batch) it returns exactly steps 1–6 in order. -/
theorem C4_orchestrator_aggregation (countResp : Option String)
    (batchResp : Nat → Nat → Option String)
    (h : ∀ s e, isNoneOrArr (generate_steps_batch (batchResp s e))) :
    generate_assembly_steps countResp batchResp
      = .ok (concatBatches batchResp
          (windows (effectiveTotal (get_total_steps countResp)))) ∧
    generate_assembly_steps (some "9") c4Resp
      = .ok [mkStep 1, mkStep 2, mkStep 3, mkStep 4, mkStep 5, mkStep 6] := by
  constructor
  · rw [generate_assembly_steps]
    rw [runBatches_concat batchResp h]
    simp
  · decide

theorem C4_orchestrator_aggregation_witness :
    generate_assembly_steps (some "9") c4Resp
      = .ok (concatBatches c4Resp
          (windows (effectiveTotal (get_total_steps (some "9"))))) ∧
    generate_assembly_steps (some "9") c4Resp
      = .ok [mkStep 1, mkStep 2, mkStep 3, mkStep 4, mkStep 5, mkStep 6] :=
  ⟨(C4_orchestrator_aggregation (some "9") c4Resp c4Resp_noneOrArr).1,
   (C4_orchestrator_aggregation (some "9") c4Resp c4Resp_noneOrArr).2⟩

/-- C10.  Unvalidated parse result: the extractor does no schema
validation — a bare number or object input parses and is returned as-is
(not a sequence of step objects), the batch generator passes it through
unchanged, and an array of non-step values flows through the orchestrator
into its result. -/
theorem C10_unvalidated_parse_result :
    parse_json_safely (some "42") = some (.num 42) ∧
    parse_json_safely (some "\x7b\"a\": 1\x7d") = some (.obj [("a", .num 1)]) ∧
    generate_steps_batch (some "42") = some (.num 42) ∧
    generate_assembly_steps (some "1") c10Resp
      = .ok [.str "oops", .num 7] := by
  exact ⟨by decide, by decide, by decide, by decide⟩

/-- C7.  Text client failure envelope: `generate_text` returns none on a
timeout, on any other transport error, and on each malformed envelope —
no candidates key, empty candidates, first candidate without content
(in which case the provider finish reason is reported), content without a
parts key, and empty parts — and the timeout is signalled distinctly from
other transport errors. -/
theorem C7_generate_text_failure_envelope :
    generate_text .timeout = none ∧
    (∀ m, generate_text (.httpError m) = none) ∧
    (∀ kvs, lookupJ kvs "candidates" = none →
      generate_text (.ok (.obj kvs)) = none) ∧
    (∀ kvs, lookupJ kvs "candidates" = some (.arr []) →
      generate_text (.ok (.obj kvs)) = none) ∧
    (∀ kvs ckvs rest,
      lookupJ kvs "candidates" = some (.arr (.obj ckvs :: rest)) →
      lookupJ ckvs "content" = none →
      generate_text (.ok (.obj kvs)) = none ∧
      generateTextR (.ok (.obj kvs)) =
        .filtered ((lookupJ ckvs "finishReason").getD (.str "UNKNOWN"))) ∧
    (∀ kvs ckvs rest cnt,
      lookupJ kvs "candidates" = some (.arr (.obj ckvs :: rest)) →
      lookupJ ckvs "content" = some (.obj cnt) →
      lookupJ cnt "parts" = none →
      generate_text (.ok (.obj kvs)) = none) ∧
    (∀ kvs ckvs rest cnt,
      lookupJ kvs "candidates" = some (.arr (.obj ckvs :: rest)) →
      lookupJ ckvs "content" = some (.obj cnt) →
      lookupJ cnt "parts" = some (.arr []) →
      generate_text (.ok (.obj kvs)) = none) ∧
    (∀ m, generateTextR .timeout ≠ generateTextR (.httpError m)) := by
  refine ⟨rfl, fun m => rfl, ?_, ?_, ?_, ?_, ?_, fun m => by simp [generateTextR]⟩
  · intro kvs hk
    simp [generate_text, generateTextR, genTextEnvelope, pyNotIn, hk,
      Bind.bind, Except.bind, Pure.pure, Except.pure]
  · intro kvs hk
    simp [generate_text, generateTextR, genTextEnvelope, pyNotIn, pyGetItemS,
      pyLen, hk, Bind.bind, Except.bind, Pure.pure, Except.pure]
  · intro kvs ckvs rest hk hc
    constructor
    · cases hfr : lookupJ ckvs "finishReason" with
      | none =>
        simp [generate_text, generateTextR, genTextEnvelope, pyNotIn,
          pyGetItemS, pyLen, pyIndex0, pyGetD, hk, hc, hfr, Bind.bind,
          Except.bind, Pure.pure, Except.pure, Functor.map, Except.map]
      | some fr =>
        simp [generate_text, generateTextR, genTextEnvelope, pyNotIn,
          pyGetItemS, pyLen, pyIndex0, pyGetD, hk, hc, hfr, Bind.bind,
          Except.bind, Pure.pure, Except.pure, Functor.map, Except.map]
    · cases hfr : lookupJ ckvs "finishReason" with
      | none =>
        simp [generateTextR, genTextEnvelope, pyNotIn, pyGetItemS, pyLen,
          pyIndex0, pyGetD, hk, hc, hfr, Bind.bind, Except.bind, Pure.pure,
          Except.pure, Functor.map, Except.map]
      | some fr =>
        simp [generateTextR, genTextEnvelope, pyNotIn, pyGetItemS, pyLen,
          pyIndex0, pyGetD, hk, hc, hfr, Bind.bind, Except.bind, Pure.pure,
          Except.pure, Functor.map, Except.map]
  · intro kvs ckvs rest cnt hk hc hp
    simp [generate_text, generateTextR, genTextEnvelope, pyNotIn, pyGetItemS,
      pyLen, pyIndex0, hk, hc, hp, Bind.bind, Except.bind, Pure.pure,
      Except.pure]
  · intro kvs ckvs rest cnt hk hc hp
    simp [generate_text, generateTextR, genTextEnvelope, pyNotIn, pyGetItemS,
      pyLen, pyIndex0, hk, hc, hp, Bind.bind, Except.bind, Pure.pure,
      Except.pure]

theorem C7_generate_text_failure_envelope_witness :
    generate_text (.ok (.obj [("x", .null)])) = none ∧
    generate_text (.ok (.obj [("candidates", .arr [])])) = none ∧
    generate_text (.ok (.obj [("candidates",
      .arr [.obj [("finishReason", .str "SAFETY")]])])) = none ∧
    generate_text (.ok (.obj [("candidates",
      .arr [.obj [("content", .obj [("role", .str "model")])]])])) = none ∧
    generate_text (.ok (.obj [("candidates",
      .arr [.obj [("content", .obj [("parts", .arr [])])]])])) = none := by
  refine ⟨?_, ?_, ?_, ?_, ?_⟩
  · exact C7_generate_text_failure_envelope.2.2.1 [("x", .null)] (by decide)
  · exact C7_generate_text_failure_envelope.2.2.2.1
      [("candidates", .arr [])] (by decide)
  · exact (C7_generate_text_failure_envelope.2.2.2.2.1
      [("candidates", .arr [.obj [("finishReason", .str "SAFETY")]])]
      [("finishReason", .str "SAFETY")] [] (by decide) (by decide)).1
  · exact C7_generate_text_failure_envelope.2.2.2.2.2.1
      [("candidates", .arr [.obj [("content", .obj [("role", .str "model")])]])]
      [("content", .obj [("role", .str "model")])] []
      [("role", .str "model")] (by decide) (by decide) (by decide)
  · exact C7_generate_text_failure_envelope.2.2.2.2.2.2.1
      [("candidates", .arr [.obj [("content", .obj [("parts", .arr [])])]])]
      [("content", .obj [("parts", .arr [])])] []
      [("parts", .arr [])] (by decide) (by decide) (by decide)

/-- C6 (counterexample).  A well-formed JSON array of step objects whose
title contains a code-fence marker does not round-trip: the normalization
strips the marker before parsing, so the extractor returns an array with
a different field value than the input array. -/
theorem C6_counterexample :
    json_loads "[\x7b\"step_number\":1,\"title\":\"x\x60\x60\x60json y\",\"description\":\"d\",\"notes\":\"n\"\x7d]"
      = some (.arr [.obj [("step_number", .num 1), ("title", .str "x\x60\x60\x60json y"),
          ("description", .str "d"), ("notes", .str "n")]]) ∧
    parse_json_safely (some "[\x7b\"step_number\":1,\"title\":\"x\x60\x60\x60json y\",\"description\":\"d\",\"notes\":\"n\"\x7d]")
      = some (.arr [.obj [("step_number", .num 1), ("title", .str "xy"),
          ("description", .str "d"), ("notes", .str "n")]]) ∧
    ¬ (Json.arr [.obj [("step_number", .num 1), ("title", .str "xy"),
          ("description", .str "d"), ("notes", .str "n")]])
      = (.arr [.obj [("step_number", .num 1), ("title", .str "x\x60\x60\x60json y"),
          ("description", .str "d"), ("notes", .str "n")]]) :=
  ⟨by decide, by decide, by decide⟩

/-- C6 (amended).  Direct-parse idempotence for fence-free arrays: every
rendered well-formed JSON array of step objects (whose text, by
construction, contains no code-fence marker) passes through the extractor
unchanged — the direct-parse stage returns exactly its element values. -/
theorem C6_direct_parse_roundtrip (o : StepObj) (rest : List StepObj)
    (ho : o.good) (hrest : ∀ x ∈ rest, x.good) :
    parse_json_safely (some (String.mk (renderArr o rest)))
      = some (.arr ((o :: rest).map StepObj.toJson)) := by
  have hsh : renderArr o rest = '[' :: (renderList o rest ++ [']']) := by
    simp [renderArr]
  have hbt : ∀ c ∈ ('[' :: (renderList o rest ++ [']'])), ¬ c = '\x60' := by
    intro c hc
    simp only [List.mem_cons, List.mem_append, List.mem_singleton] at hc
    rcases hc with rfl | hc | hc
    · decide
    · rcases (by simpa [renderList] using hc :
        c ∈ renderObj o ∨ c ∈ renderTail rest) with h | h
      · exact renderObj_no_backtick ho c h
      · exact renderTail_no_backtick hrest c h
    · rcases hc with rfl | h
      · decide
      · simp at h
  have hlast : ∀ c, ('[' :: (renderList o rest ++ [']'])).getLast? = some c →
      pySpace c = false := by
    intro c hc
    rw [show ('[' :: (renderList o rest ++ [']']))
        = ('[' :: renderList o rest) ++ [']'] from by simp] at hc
    rw [List.getLast?_concat] at hc
    cases hc
    decide
  simp only [parse_json_safely]
  rw [hsh]
  rw [cleanText_eq _ hbt hlast]
  rw [show ('[' :: (renderList o rest ++ [']'])) = renderArr o rest from hsh.symm]
  rw [json_loads_renderArr o rest ho hrest]

theorem C6_direct_parse_roundtrip_witness :
    parse_json_safely (some (String.mk
        (renderArr ⟨['1'], ['A'], ['B'], ['C']⟩ [⟨['2'], ['D'], ['E'], ['F']⟩])))
      = some (.arr (([⟨['1'], ['A'], ['B'], ['C']⟩, ⟨['2'], ['D'], ['E'], ['F']⟩] :
          List StepObj).map StepObj.toJson)) :=
  C6_direct_parse_roundtrip ⟨['1'], ['A'], ['B'], ['C']⟩
    [⟨['2'], ['D'], ['E'], ['F']⟩] (by decide) (by decide)

/-- C2.  Truncation salvage: for every input consisting of a valid JSON
array opening, one or more complete step objects, and a trailing
incomplete object fragment, the extractor returns exactly the array of
the complete objects preceding the truncation point (the primary repair
truncates just after the last complete object and appends `]`), and no
exception escapes (every failure is a value in the embedding). -/
theorem C2_truncation_salvage (o : StepObj) (rest : List StepObj)
    (frag : List Char) (ho : o.good) (hrest : ∀ x ∈ rest, x.good)
    (hf : fragOk frag) :
    parse_json_safely (some (String.mk (renderTrunc o rest frag)))
      = some (.arr ((o :: rest).map StepObj.toJson)) := by
  obtain ⟨t, rfl, hgood, hlastf⟩ := hf
  have hob : '\x7b' ∉ t := fun hm => (hgood _ hm).1 rfl
  have hcb : '\x7d' ∉ t := fun hm => (hgood _ hm).2.1 rfl
  have hbt : '\x60' ∉ t := fun hm => (hgood _ hm).2.2 rfl
  have hsh : renderTrunc o rest ('\x7b' :: t)
      = '[' :: (renderList o rest ++ ',' :: '\x7b' :: t) := rfl
  have hbtick : ∀ c ∈ ('[' :: (renderList o rest ++ ',' :: '\x7b' :: t)),
      ¬ c = '\x60' := by
    refine forall_mem_cons (by decide) ?_
    refine forall_mem_append ?_ ?_
    · exact forall_mem_append (renderObj_no_backtick ho)
        (renderTail_no_backtick hrest)
    · refine forall_mem_cons (by decide) ?_
      refine forall_mem_cons (by decide) ?_
      exact fun c hc e => hbt (e ▸ hc)
  have hlastc : ∀ c, ('[' :: (renderList o rest ++ ',' :: '\x7b' :: t)).getLast?
      = some c → pySpace c = false := by
    intro c hc
    rw [show ('[' :: (renderList o rest ++ ',' :: '\x7b' :: t))
        = ('[' :: renderList o rest ++ [',']) ++ '\x7b' :: t from by simp] at hc
    rw [List.getLast?_append_of_ne_nil _ (by simp)] at hc
    have := hlastf c hc
    simpa using this
  have hclean : cleanText (String.mk (renderTrunc o rest ('\x7b' :: t)))
      = renderTrunc o rest ('\x7b' :: t) := by
    rw [hsh, cleanText_eq _ hbtick hlastc]
  have hdirect := json_loads_trunc o rest t ho hrest hcb
  have hprimary := primaryRepair_trunc o rest t ho hrest hob hcb
  simp only [parse_json_safely]
  rw [hclean, hdirect, hprimary]

theorem C2_truncation_salvage_witness :
    StepObj.good ⟨['1'], ['A'], ['B'], ['C']⟩ ∧
    fragOk ('\x7b' :: ['\"', 's', 't', 'e', 'p', '_', 'n', 'u', 'm', 'b', 'e',
      'r', '\"', ':', '2', ',', '\"', 't', 'i', 't', 'l']) ∧
    parse_json_safely (some (String.mk (renderTrunc ⟨['1'], ['A'], ['B'], ['C']⟩ []
        ('\x7b' :: ['\"', 's', 't', 'e', 'p', '_', 'n', 'u', 'm', 'b', 'e',
          'r', '\"', ':', '2', ',', '\"', 't', 'i', 't', 'l']))))
      = some (.arr (((⟨['1'], ['A'], ['B'], ['C']⟩ : StepObj) :: []).map
          StepObj.toJson)) :=
  ⟨by decide,
    ⟨_, rfl, by decide, fun c hc => by
      rw [show ('\x7b' :: ['\"', 's', 't', 'e', 'p', '_', 'n', 'u', 'm', 'b',
          'e', 'r', '\"', ':', '2', ',', '\"', 't', 'i', 't', 'l']).getLast?
        = some 'l' from rfl] at hc
      cases hc
      decide⟩,
    C2_truncation_salvage _ _ _ (by decide) (by simp)
      ⟨_, rfl, by decide, fun c hc => by
        rw [show ('\x7b' :: ['\"', 's', 't', 'e', 'p', '_', 'n', 'u', 'm', 'b',
            'e', 'r', '\"', ':', '2', ',', '\"', 't', 'i', 't', 'l']).getLast?
          = some 'l' from rfl] at hc
        cases hc
        decide⟩⟩

end Rag
